import Mathlib

/-!
Verification of the bioconda-utils build scheduler (`bioconda_utils/build.py`)
and pinning-freshness classifier (`bioconda_utils/update_pinnings.py`).

The Python source is shallowly embedded: pure helpers become Lean functions,
the stateful scheduler loop becomes explicit state passing over a `SchedState`
record, and collaborator calls (conda render, package-index queries, the build
tool, uploads) are passed in as explicit function arguments or oracle data, as
the spec treats them as external interfaces.  Functions from the external
`networkx` library (`connected_components`, `topological_sort`, `descendants`)
are not part of this repository; they are modelled from their documented
semantics, as noted on each definition.
-/

namespace Bioconda

/-! ## Pinning state flags (update_pinnings.State, an enum.Flag bitset) -/

/-- Embeds `update_pinnings.State`: a bitset over the six pinning flags.
Each field is one flag of the Python `enum.Flag`. -/
structure State where
  fail : Bool := false
  skip : Bool := false
  have_ : Bool := false
  bumped : Bool := false
  bump : Bool := false
  have_noarch_python : Bool := false
deriving DecidableEq, Repr

/-- The flag constant `State.FAIL`. -/
def State.FAIL : State := { fail := true }

/-- The flag constant `State.SKIP`. -/
def State.SKIP : State := { skip := true }

/-- The flag constant `State.HAVE`. -/
def State.HAVE : State := { have_ := true }

/-- The flag constant `State.BUMPED`. -/
def State.BUMPED : State := { bumped := true }

/-- The flag constant `State.BUMP`. -/
def State.BUMP : State := { bump := true }

/-- The flag constant `State.HAVE_NOARCH_PYTHON`. -/
def State.HAVE_NOARCH_PYTHON : State := { have_noarch_python := true }

/-- Embeds `State(0)`, the empty flag set. -/
def State.zero : State := {}

/-- Embeds the `|=` (bitwise or) combination of two flag sets. -/
def State.union (a b : State) : State :=
  ⟨a.fail || b.fail, a.skip || b.skip, a.have_ || b.have_,
   a.bumped || b.bumped, a.bump || b.bump,
   a.have_noarch_python || b.have_noarch_python⟩

/-- Number of flags set in a `State`; used to express that the per-variant
classification yields exactly one flag. -/
def State.flagCount (s : State) : Nat :=
  (cond s.fail 1 0) + (cond s.skip 1 0) + (cond s.have_ 1 0) +
  (cond s.bumped 1 0) + (cond s.bump 1 0) + (cond s.have_noarch_python 1 0)

/-- Embeds `State.needs_bump`: truthiness of `self & self.BUMP`. -/
def State.needs_bump (s : State) : Bool := s.bump

/-- Embeds `State.failed`: truthiness of `self & self.FAIL`. -/
def State.failed (s : State) : Bool := s.fail

/-! ## Package index model (utils.RepoData.get_package_data) -/

/-- One entry of the package index consulted through
`RepoData().get_package_data`, with the four fields the classifier filters on
plus the build string it may return. -/
structure PkgRecord where
  name : String
  version : String
  build : String
  build_number : Nat
  platform : String
deriving DecidableEq, Repr

/-- Filter set for a `get_package_data` call: `none` means the keyword was not
passed; `platform` is the list passed as the `platform=` keyword. -/
structure Query where
  name : Option String := none
  version : Option String := none
  build : Option String := none
  build_number : Option Nat := none
  platform : List String := []
deriving Repr

/-- Whether one index record satisfies every filter of a query. -/
def matchesQuery (q : Query) (r : PkgRecord) : Bool :=
  (match q.name with | some n => r.name == n | none => true) &&
  (match q.version with | some v => r.version == v | none => true) &&
  (match q.build with | some b => r.build == b | none => true) &&
  (match q.build_number with | some bn => r.build_number == bn | none => true) &&
  q.platform.contains r.platform

/-- Embeds the external package-index query service
`RepoData().get_package_data` over an explicit index. -/
def get_package_data (repo : List PkgRecord) (q : Query) : List PkgRecord :=
  repo.filter (matchesQuery q)

/-! ## Rendered variant metadata -/

/-- Embeds the conda-build `MetaData` interface surface used by
`update_pinnings.py`: `name()`, `version()`, `build_number()`, `build_id()`,
`get_value('build/noarch')`, `skip()`, the build/host requirement lists, and
the effective build-variant key set.  The field `build_variants` holds the
result of `_get_build_variants` (`get_used_vars` minus build-only deps), which
is computed by the external conda-build library. -/
structure MetaData where
  name : String
  version : String
  build_number : Nat
  build_id : String
  noarch : Option String
  skip : Bool
  build_variants : List String
  req_build : List String
  req_host : List String
deriving DecidableEq, Repr

/-- Embeds `skip_for_variants`: true iff the recipe's build-variant key set is
not disjoint from the given variant keys. -/
def skip_for_variants (meta : MetaData) (variant_keys : List String) : Bool :=
  meta.build_variants.any (fun v => variant_keys.contains v)

/-- Embeds `will_build_variant`: all extant build numbers for (name, version)
on linux/noarch are smaller than the variant's build number. -/
def will_build_variant (repo : List PkgRecord) (meta : MetaData) : Bool :=
  let build_numbers := (get_package_data repo
    { name := some meta.name, version := some meta.version,
      platform := ["linux", "noarch"] }).map (·.build_number)
  build_numbers.all (fun num => num < meta.build_number)

/-- Embeds `have_noarch_python_build_number`: the variant is noarch python and
a (name, version, build_number) record exists on the noarch platform. -/
def have_noarch_python_build_number (repo : List PkgRecord) (meta : MetaData) : Bool :=
  if meta.noarch != some "python" then false
  else !(get_package_data repo
    { name := some meta.name, version := some meta.version,
      build_number := some meta.build_number, platform := ["noarch"] }).isEmpty

/-! ## Legacy build-string normalization -/

/-- Replaces every non-overlapping occurrence of `pat` (left to right) in the
character list, as Python's `str.replace` does.  Fuel makes the recursion
structural; fuel equal to the list length suffices since every step consumes
at least one character. -/
def replaceFuel (pat rep : List Char) : Nat → List Char → List Char
  | 0, cs => cs
  | _ + 1, [] => []
  | fuel + 1, c :: cs =>
    if pat.isPrefixOf (c :: cs) && !pat.isEmpty then
      rep ++ replaceFuel pat rep fuel (cs.drop (pat.length - 1))
    else c :: replaceFuel pat rep fuel cs

/-- Embeds Python's `str.replace` (all non-overlapping occurrences, left to
right) on strings. -/
def replaceStr (s pat rep : String) : String :=
  String.mk (replaceFuel pat.toList rep.toList s.toList.length s.toList)

/-- Embeds Python's `str.startswith` on strings. -/
def strStartsWith (s pre : String) : Bool := pre.toList.isPrefixOf s.toList

/-- Embeds the Python slice `s[n:]`. -/
def strDrop (s : String) (n : Nat) : String := String.mk (s.toList.drop n)

/-- Worker for `splitWs` carrying the reversed current token. -/
def splitWsAux : List Char → List Char → List String
  | [], acc => if acc.isEmpty then [] else [String.mk acc.reverse]
  | c :: cs, acc =>
    if c.isWhitespace then
      if acc.isEmpty then splitWsAux cs []
      else String.mk acc.reverse :: splitWsAux cs []
    else splitWsAux cs (c :: acc)

/-- Embeds Python's no-argument `str.split`: split on runs of whitespace,
dropping empty tokens. -/
def splitWs (s : String) : List String := splitWsAux s.toList []

/-- Greedily takes at most `max` leading digits, as the greedy regex
quantifiers do. -/
def grabDigits : Nat → List Char → List Char × List Char
  | 0, cs => ([], cs)
  | _ + 1, [] => ([], [])
  | max + 1, c :: cs =>
    if c.isDigit then
      let (ds, rest) := grabDigits max cs
      (c :: ds, rest)
    else ([], c :: cs)

/-- The alternatives of the `_legacy_build_string_prefixes` regex, in source
order: group name, literal tag, and minimum digit count (maximum is 9). -/
def legacyTagSpecs : List (String × String × Nat) :=
  [("numpy", "np", 2), ("python", "py", 2), ("perl", "pl", 2),
   ("lua", "lua", 2), ("r_base", "r", 2), ("mro_base", "mro", 3)]

/-- Tries to match one alternative `(group, tag, minDigits)` at the head of the
string: the literal tag followed by `minDigits` to 9 digits, greedily. -/
def tryTag (cs : List Char) : String × String × Nat → Option (String × String × List Char)
  | (group, tag, minDigits) =>
    let t := tag.toList
    if t.isPrefixOf cs then
      let (ds, rest) := grabDigits 9 (cs.drop t.length)
      if minDigits ≤ ds.length then
        some (group, tag ++ String.mk ds, rest)
      else none
    else none

/-- Tries each regex alternative in source order at the head of the string. -/
def tryTags (cs : List Char) : List (String × String × Nat) → Option (String × String × List Char)
  | [] => none
  | spec :: rest =>
    match tryTag cs spec with
    | some r => some r
    | none => tryTags cs rest

/-- Matches the starred alternation of `_legacy_build_string_prefixes` at the
head of a string, returning the sequence of (group name, matched text) pairs.
Fuel decreases every iteration; each successful match consumes at least three
characters, so fuel equal to the string length suffices. -/
def matchTagsFuel : Nat → List Char → List (String × String)
  | 0, _ => []
  | fuel + 1, cs =>
    match tryTags cs legacyTagSpecs with
    | some (group, matched, rest) => (group, matched) :: matchTagsFuel fuel rest
    | none => []

/-- All (group, matched text) pairs the legacy regex matches at the start of a
build string. -/
def matchTags (s : String) : List (String × String) :=
  matchTagsFuel (s.toList.length + 1) s.toList

/-- The last match of a named group, which is what Python's `groupdict()`
reports for a group inside a starred alternation. -/
def groupLast (ms : List (String × String)) (g : String) : Option String :=
  ((ms.filter (fun p => p.1 == g)).map (fun p => p.2)).getLast?

/-- The group names of `_legacy_build_string_prefixes` in definition order,
which is the iteration order of `match.groupdict().items()`. -/
def legacyGroupNames : List String :=
  ["numpy", "python", "perl", "lua", "r_base", "mro_base"]

/-- Embeds the body of the legacy-trimming loop of `have_variant`: for each
group that matched, unless the group name occurs in the normalized build/host
dependency names, delete the matched text from the candidate build string;
finally drop one leading underscore if present. -/
def legacyTrim (build_deps : List String) (build_id : String) : String :=
  let ms := matchTags build_id
  let trimmed := legacyGroupNames.foldl
    (fun t g =>
      match groupLast ms g with
      | some matched => if build_deps.contains g then t else replaceStr t matched ""
      | none => t)
    build_id
  if strStartsWith trimmed "_" then strDrop trimmed 1 else trimmed

/-- Embeds the normalization of one requirement entry in `have_variant`:
`dep.split()[0].replace('-', '_')` (first whitespace-separated token, hyphens
folded to underscores).  Python raises on an all-whitespace entry; this model
returns the empty string there instead. -/
def normalizeDep (dep : String) : String :=
  replaceStr ((splitWs dep).headD "") "-" "_"

/-- The normalized build/host dependency names of a variant, as computed at
the top of `have_variant`'s legacy fallback. -/
def buildDepNames (meta : MetaData) : List String :=
  (meta.req_build ++ meta.req_host).map normalizeDep

/-- Embeds `have_variant`: an exact (name, version, build string) match on
linux/noarch, or a (name, version, build_number) record whose build string
equals the variant's after legacy trimming. -/
def have_variant (repo : List PkgRecord) (meta : MetaData) : Bool :=
  let exact := get_package_data repo
    { name := some meta.name, version := some meta.version,
      build := some meta.build_id, platform := ["linux", "noarch"] }
  if !exact.isEmpty then true
  else
    let build_deps := buildDepNames meta
    let builds := (get_package_data repo
      { name := some meta.name, version := some meta.version,
        build_number := some meta.build_number,
        platform := ["linux", "noarch"] }).map (·.build)
    builds.any (fun build_id => legacyTrim build_deps build_id == meta.build_id)

/-! ## The check() classifier -/

/-- Characters allowed in a build string
(`string.digits + ascii uppercase + ascii lowercase + '_.'`). -/
def allowedBuildStringChar (c : Char) : Bool :=
  c.isDigit || (c.isUpper && c.isAlpha) || (c.isLower && c.isAlpha) || c == '_' || c == '.'

/-- Embeds `has_invalid_build_string`: the build string is empty or contains a
character outside the allowed set. -/
def has_invalid_build_string (meta : MetaData) : Bool :=
  !(meta.build_id != "" && meta.build_id.toList.all allowedBuildStringChar)

/-- Outcome of the external render collaborator `recipe.conda_render`:
a successful render returns `some` list of variant metadata or `none`
(Python `None`); a failing render raises either the recoverable `RecipeError`
or some other exception. -/
inductive RenderResult where
  | rendered (metas : Option (List MetaData))
  | raisedRecipeError
  | raisedOther
deriving DecidableEq

/-- Embeds the per-variant branch of the loop in `check`: the if/elif chain
that assigns exactly one flag to one rendered variant. -/
def variantFlag (repo : List PkgRecord) (skip_variant_keys : List String)
    (meta : MetaData) : State :=
  if meta.skip || skip_for_variants meta skip_variant_keys then State.SKIP
  else if have_noarch_python_build_number repo meta then State.HAVE_NOARCH_PYTHON
  else if have_variant repo meta then State.HAVE
  else if will_build_variant repo meta then State.BUMPED
  else State.BUMP

/-- Embeds `update_pinnings.check`.  The render collaborator's outcome is an
explicit argument; both exception paths return `(State.FAIL, recipe)`, as does
a `None` render result or any invalid build string; otherwise the loop
or-combines one flag per variant starting from `State(0)`. -/
def check (render : RenderResult) (repo : List PkgRecord)
    (skip_variant_keys : List String) (recipe : String) : State × String :=
  match render with
  | .raisedRecipeError => (State.FAIL, recipe)
  | .raisedOther => (State.FAIL, recipe)
  | .rendered none => (State.FAIL, recipe)
  | .rendered (some metas) =>
    if metas.any has_invalid_build_string then (State.FAIL, recipe)
    else
      (metas.foldl (fun flags meta =>
        flags.union (variantFlag repo skip_variant_keys meta)) State.zero,
       recipe)

/-! ## Spec-side formulation of the classifier (for the refinement claim) -/

/-- First-match selection over an ordered list of (condition, flag) pairs,
with a default flag when nothing matches. -/
def firstMatch : List (Bool × State) → State → State
  | [], dflt => dflt
  | (cond, s) :: rest, dflt => if cond then s else firstMatch rest dflt

/-- The spec's precedence list for one variant: SKIP, then
HAVE_NOARCH_PYTHON, then HAVE, then BUMPED; the default is BUMP. -/
def precedenceList (repo : List PkgRecord) (skip_variant_keys : List String)
    (meta : MetaData) : List (Bool × State) :=
  [(meta.skip || skip_for_variants meta skip_variant_keys, State.SKIP),
   (have_noarch_python_build_number repo meta, State.HAVE_NOARCH_PYTHON),
   (have_variant repo meta, State.HAVE),
   (will_build_variant repo meta, State.BUMPED)]

/-- Spec-side per-variant classification: first match in the precedence list,
else BUMP. -/
def classifyVariantSpec (repo : List PkgRecord) (skip_variant_keys : List String)
    (meta : MetaData) : State :=
  firstMatch (precedenceList repo skip_variant_keys meta) State.BUMP

/-- Spec-side result for a successful render: the or-combination, over all
variants, of the one flag chosen per variant. -/
def checkSpecFlags (repo : List PkgRecord) (skip_variant_keys : List String)
    (metas : List MetaData) : State :=
  (metas.map (classifyVariantSpec repo skip_variant_keys)).foldl State.union State.zero

/-! ## Directed graphs of package names

The dependency DAG built by `utils.get_dag` is external to the two source
files; the scheduler consumes it through the `networkx` graph interface.  A
graph is a node list and a directed edge list (an edge `(a, b)` means `b`
depends on `a`); node sets have set semantics, so every operation works on
`nodes.dedup`. -/

structure DiGraph where
  nodes : List String
  edges : List (String × String)
deriving DecidableEq, Repr

/-- A graph is well formed when every edge joins two of its nodes, as holds
for the graphs `utils.get_dag` and `subgraph` produce. -/
def DiGraph.WellFormed (g : DiGraph) : Prop :=
  ∀ e ∈ g.edges, e.1 ∈ g.nodes ∧ e.2 ∈ g.nodes

instance (g : DiGraph) : Decidable g.WellFormed := by
  unfold DiGraph.WellFormed; infer_instance

/-- Modelled from the spec: `networkx.Graph.subgraph` — the subgraph induced
by the given node collection (nodes of the graph that are in the collection,
and the edges among them). -/
def DiGraph.subgraph (g : DiGraph) (ns : List String) : DiGraph :=
  ⟨g.nodes.filter (fun n => ns.contains n),
   g.edges.filter (fun e => ns.contains e.1 && ns.contains e.2)⟩

/-- One edge step of the dependency relation of a graph. -/
def edgeStep (g : DiGraph) (a b : String) : Prop := (a, b) ∈ g.edges

instance (g : DiGraph) (a b : String) : Decidable (edgeStep g a b) := by
  unfold edgeStep; infer_instance

/-! ### Topological sort (model of networkx.topological_sort) -/

/-- True when node `n` has no incoming edge from a node still in
`remaining`. -/
def noIncoming (edges : List (String × String)) (remaining : List String)
    (n : String) : Bool :=
  edges.all (fun e => !(e.2 == n && remaining.contains e.1))

/-- Kahn's algorithm worker: repeatedly emit the first remaining node without
an incoming edge from the remaining set.  Fuel bounds the recursion; one node
leaves `remaining` per step, so fuel equal to the node count suffices. -/
def kahnAux : Nat → List (String × String) → List String → List String
  | 0, _, _ => []
  | fuel + 1, edges, remaining =>
    match remaining.find? (noIncoming edges remaining) with
    | none => []
    | some n => n :: kahnAux fuel edges (remaining.erase n)

/-- Modelled from the spec: `networkx.topological_sort` — a topological order
of the graph's nodes (complete for acyclic graphs), here computed by Kahn's
algorithm with first-in-list tie breaking. -/
def topological_sort (g : DiGraph) : List String :=
  kahnAux g.nodes.dedup.length g.edges g.nodes.dedup

/-! ### Descendants (model of networkx.algorithms.descendants) -/

/-- The direct successors of a node along the edge list. -/
def succs (edges : List (String × String)) (n : String) : List String :=
  (edges.filter (fun e => e.1 == n)).map (fun e => e.2)

/-- One saturation step of forward reachability: append the successors not
seen yet. -/
def closeStep (edges : List (String × String)) (s : List String) : List String :=
  s ++ ((s.flatMap (succs edges)).dedup.filter (fun x => !(s.contains x)))

/-- Iterated saturation with fuel; stops at the first fixed point. -/
def closeFuel : Nat → List (String × String) → List String → List String
  | 0, _, s => s
  | fuel + 1, edges, s =>
    let s' := closeStep edges s
    if s' = s then s else closeFuel fuel edges s'

/-- All nodes forward-reachable from `n` (including `n`).  The fuel bounds the
number of strict growth steps: every element ever added is `n` or an edge
target, so `edges.length + 1` steps reach the fixed point. -/
def reachableFrom (g : DiGraph) (n : String) : List String :=
  closeFuel (g.edges.length + 1) g.edges [n]

/-- Modelled from the spec: `networkx.algorithms.descendants` — all nodes
reachable from `n`, excluding `n` itself. -/
def descendants (g : DiGraph) (n : String) : List String :=
  (reachableFrom g n).filter (fun m => !(m == n))

/-! ### Connected components and sharding (build_recipes lines 308-326) -/

/-- Stable insertion of an element into a list sorted by `le`. -/
def insortBy (le : α → α → Bool) (x : α) : List α → List α
  | [] => [x]
  | y :: ys => if le x y then x :: y :: ys else y :: insortBy le x ys

/-- Stable insertion sort by `le`; models Python's `sorted`. -/
def sortBy (le : α → α → Bool) : List α → List α
  | [] => []
  | x :: xs => insortBy le x (sortBy le xs)

/-- String comparison for Python's `sorted` over package names. -/
def strLe (a b : String) : Bool := a < b || a == b

/-- Lexicographic comparison of string lists, for sorting the component
lists. -/
def listLe : List String → List String → Bool
  | [], _ => true
  | _ :: _, [] => false
  | a :: as, b :: bs => if a < b then true else if b < a then false else listLe as bs

/-- Removes the first class containing `x`, returning it and the remaining
classes. -/
def extractClass (x : String) : List (List String) → Option (List String × List (List String))
  | [] => none
  | c :: cs =>
    if c.contains x then some (c, cs)
    else
      match extractClass x cs with
      | some (c', rest) => some (c', c :: rest)
      | none => none

/-- Merges the classes of the two endpoints of one (undirected) edge. -/
def mergeClasses (cs : List (List String)) (e : String × String) : List (List String) :=
  match extractClass e.1 cs with
  | none => cs
  | some (ca, rest) =>
    if ca.contains e.2 then cs
    else
      match extractClass e.2 rest with
      | none => cs
      | some (cb, rest2) => (ca ++ cb) :: rest2

/-- Modelled from the spec: `networkx.connected_components` of the graph's
undirected closure — computed by starting from singleton classes over the node
set and merging the endpoint classes of every edge. -/
def connected_components (g : DiGraph) : List (List String) :=
  g.edges.foldl mergeClasses (g.nodes.dedup.map (fun n => [n]))

/-- Embeds the `subdags` computation (build_recipes lines 309-315): single
sorted nodes under test-only execution, otherwise the sorted list of sorted
connected components. -/
def subdagsOf (g : DiGraph) (testonly : Bool) : List (List String) :=
  if testonly then sortBy listLe (g.nodes.dedup.map (fun n => [n]))
  else sortBy listLe ((connected_components g).map (sortBy strLe))

/-- The elements at positions congruent to `i` modulo `n`, starting the count
at `k`; embeds the Python slice `xs[i::n]`. -/
def sliceAux (i n : Nat) : Nat → List α → List α
  | _, [] => []
  | k, x :: xs => (if k % n == i then [x] else []) ++ sliceAux i n (k + 1) xs

/-- Embeds the Python slice `subdags[i::subdags_n]`. -/
def sliceRR (i n : Nat) (xs : List α) : List α := sliceAux i n 0 xs

/-- Embeds the `chunks` computation (build_recipes lines 317-321): round-robin
flattening when there are more units than shards, otherwise the units
themselves. -/
def chunksOf (g : DiGraph) (testonly : Bool) (subdags_n : Nat) : List (List String) :=
  let subdags := subdagsOf g testonly
  if subdags_n < subdags.length then
    (List.range subdags_n).map (fun i => (sliceRR i subdags_n subdags).flatten)
  else subdags

/-- Embeds `subdag = dag.subgraph(chunks[subdag_i])` together with the
empty-shard early exit for `subdag_i ≥ len(chunks)` (lines 322-326). -/
def shard (g : DiGraph) (testonly : Bool) (subdags_n subdag_i : Nat) : DiGraph :=
  g.subgraph ((chunksOf g testonly subdags_n).getD subdag_i [])

/-! ## The single-recipe build function (build.py, build) -/

/-- Embeds `BuildResult = namedtuple("BuildResult", ["success", "mulled_image"])`. -/
structure BuildResult where
  success : Bool
  mulled_image : Option String
deriving DecidableEq, Repr

/-- Outcome of one external process-running collaborator call
(`docker_builder.build_recipe` or `utils.run`): normal return, or one of the
exception classes it may raise. -/
inductive CollabOutcome where
  | ok
  | raiseDockerCPE
  | raiseCalledProcess
  | raiseOther
deriving DecidableEq, Repr

/-- An exception that escapes `build` and aborts the whole run. -/
inductive BuildAbort where
  | unexpectedError
deriving DecidableEq, Repr

/-- The collaborator outcomes and flags one `build` call depends on:
whether a docker builder is used, the outcome of the docker or shell build
call, whether the built package path exists afterwards, whether the mulled
test is requested, and the mulled test result. -/
structure BuildEnv where
  docker_builder : Bool
  dockerOutcome : CollabOutcome
  pkgExists : Bool
  runOutcome : CollabOutcome
  mulled_test : Bool
  testReturncode : Nat
  testHasUnexpectedExit : Bool
  imageName : String
deriving DecidableEq, Repr

/-- Embeds `build.py`'s `build`: the try block converts
`DockerCalledProcessError` and `CalledProcessError` into
`BuildResult(False, None)` while any other exception propagates
(`.error`); a missing built package also fails; without the mulled test a
successful build returns `(True, None)`; with it, returncode 0 and no
"Unexpected exit code" marker yield `(True, image)`, else `(False, None)`. -/
def build (e : BuildEnv) : Except BuildAbort BuildResult :=
  match (if e.docker_builder then e.dockerOutcome else e.runOutcome) with
  | .raiseDockerCPE => .ok ⟨false, none⟩
  | .raiseCalledProcess => .ok ⟨false, none⟩
  | .raiseOther => .error .unexpectedError
  | .ok =>
    if e.docker_builder && !e.pkgExists then .ok ⟨false, none⟩
    else if !e.mulled_test then .ok ⟨true, none⟩
    else if e.testReturncode == 0 && !e.testHasUnexpectedExit then
      .ok ⟨true, some e.imageName⟩
    else .ok ⟨false, none⟩

/-! ## The scheduler loop (build_recipes lines 328-427) -/

/-- Embeds the per-recipe build targets produced by `utils.filter_recipes`:
the environment and the built package path. -/
structure Target where
  env : String
  pkg : String
deriving DecidableEq, Repr

/-- Ghost trace of the externally visible collaborator calls the scheduler
makes, used to state temporal properties. -/
inductive Event where
  | buildCall (recipe : String) (target : Target)
  | purgeCall
  | skipRecord (recipe : String) (blockers : List String)
  | anacondaUp (pkg : String) (ok : Bool)
  | mulledUp (image : Option String) (target : String) (ok : Bool)
deriving DecidableEq, Repr

/-- The mutable locals of the `build_recipes` loop (lines 338-343), plus the
ghost event trace. -/
structure SchedState where
  failed : List (String × Target)
  built_recipes : List String
  skipped_recipes : List String
  all_success : Bool
  failed_uploads : List String
  skip_dependent : List (String × List String)
  events : List Event
deriving DecidableEq, Repr

/-- Embeds reading `skip_dependent` (a `defaultdict(list)`): `some` exactly
when the name has been appended to at least once. -/
def ledgerGet : List (String × List String) → String → Option (List String)
  | [], _ => none
  | (m, rs) :: rest, n => if m == n then some rs else ledgerGet rest n

/-- Embeds `skip_dependent[n].append(recipe)` on a `defaultdict(list)`. -/
def ledgerAdd (l : List (String × List String)) (n : String) (r : String) :
    List (String × List String) :=
  match l with
  | [] => [(n, [r])]
  | (m, rs) :: rest =>
    if m == n then (m, rs ++ [r]) :: rest else (m, rs) :: ledgerAdd rest n r

/-- The inputs of one scheduler run: the shard subgraph, the recipe/name maps
and targets from graph construction and filtering, the build collaborator's
outcome per (recipe, target) attempt, and the upload configuration.
Collaborator upload services signal failure by their boolean result, as
`upload.anaconda_upload` does. -/
structure SchedConfig where
  subdag : DiGraph
  name2recipes : String → List String
  recipe2name : String → String
  recipe_targets : String → List Target
  buildFn : String → Target → BuildResult
  testonly : Bool
  anaconda_upload : Bool
  mulled_upload_target : Option String
  anacondaUploadFn : String → Bool
  mulledUploadFn : Option String → String → Bool

/-- Embeds one iteration of the inner target loop (lines 358-387): call the
build collaborator, fold its success into `all_success` and the per-recipe
success bit, on failure record the (recipe, target) pair and append the recipe
to `skip_dependent` under every descendant of its package name, on success
outside test-only mode run the configured uploads (a failed anaconda upload is
recorded in `failed_uploads`; the mulled upload's result is discarded), and
always purge afterwards. -/
def processTarget (cfg : SchedConfig) (name recipe : String)
    (acc : SchedState × Bool) (t : Target) : SchedState × Bool :=
  let s := acc.1
  let recipe_success := acc.2
  let res := cfg.buildFn recipe t
  let s := { s with events := s.events ++ [Event.buildCall recipe t],
                    all_success := s.all_success && res.success }
  let s :=
    if !res.success then
      { s with failed := s.failed ++ [(recipe, t)],
               skip_dependent := (descendants cfg.subdag name).foldl
                 (fun l n2 => ledgerAdd l n2 recipe) s.skip_dependent }
    else if !cfg.testonly then
      let s1 :=
        if cfg.anaconda_upload then
          let ok := cfg.anacondaUploadFn t.pkg
          let s' := { s with events := s.events ++ [Event.anacondaUp t.pkg ok] }
          if !ok then { s' with failed_uploads := s'.failed_uploads ++ [t.pkg] }
          else s'
        else s
      match cfg.mulled_upload_target with
      | some tgt =>
        let ok := cfg.mulledUploadFn res.mulled_image tgt
        { s1 with events := s1.events ++ [Event.mulledUp res.mulled_image tgt ok] }
      | none => s1
    else s
  ({ s with events := s.events ++ [Event.purgeCall] }, recipe_success && res.success)

/-- Embeds one iteration of the outer recipe loop (lines 345-390): skip the
recipe when its package name is already in `skip_dependent`, otherwise run all
its targets and record it as built when every target succeeded. -/
def processRecipe (cfg : SchedConfig) (s : SchedState) (recipe : String) : SchedState :=
  let name := cfg.recipe2name recipe
  match ledgerGet s.skip_dependent name with
  | some blockers =>
    { s with skipped_recipes := s.skipped_recipes ++ [recipe],
             events := s.events ++ [Event.skipRecord recipe blockers] }
  | none =>
    let out := (cfg.recipe_targets recipe).foldl (processTarget cfg name recipe) (s, true)
    if out.2 then { out.1 with built_recipes := out.1.built_recipes ++ [recipe] }
    else out.1

/-- The initial loop state (lines 338-343). -/
def initState : SchedState := ⟨[], [], [], true, [], [], []⟩

/-- Embeds lines 329-331: the flat recipe execution order, one package name at
a time in topological order, expanded to the recipes contributing it. -/
def scheduledRecipes (cfg : SchedConfig) : List String :=
  (topological_sort cfg.subdag).flatMap cfg.name2recipes

/-- The execution order with provenance: each scheduled recipe paired with the
package name whose expansion contributed it. -/
def scheduledPairs (cfg : SchedConfig) : List (String × String) :=
  (topological_sort cfg.subdag).flatMap
    (fun n => (cfg.name2recipes n).map (fun r => (n, r)))

/-- Embeds the whole scheduler loop: fold the per-recipe step over the
execution order. -/
def runScheduler (cfg : SchedConfig) : SchedState :=
  (scheduledRecipes cfg).foldl (processRecipe cfg) initState

/-- Embeds the return value of `build_recipes` (lines 392-427): `False` when
anything failed to build or upload, otherwise `all_success`. -/
def schedulerResult (cfg : SchedConfig) : Bool :=
  let s := runScheduler cfg
  if !s.failed.isEmpty || !s.failed_uploads.isEmpty then false else s.all_success

/-- Number of purge calls in a trace. -/
def countPurge (es : List Event) : Nat :=
  es.countP (fun e => match e with | .purgeCall => true | _ => false)

/-- Number of build-collaborator calls (target attempts) in a trace. -/
def countBuild (es : List Event) : Nat :=
  es.countP (fun e => match e with | .buildCall _ _ => true | _ => false)

/-- Recipe `r` is recorded in the skip ledger under name `n`. -/
def ledgerMem (l : List (String × List String)) (n r : String) : Prop :=
  ∃ rs, ledgerGet l n = some rs ∧ r ∈ rs

/-- The observable report of a scheduler state: everything except the ghost
event trace. -/
def SchedState.observables (s : SchedState) :
    List (String × Target) × List String × List String × Bool × List String ×
      List (String × List String) :=
  (s.failed, s.built_recipes, s.skipped_recipes, s.all_success, s.failed_uploads,
   s.skip_dependent)

/-- A concrete three-package scheduling run (a depends-chain a → b → c, one
recipe per name, one target each) whose recipe for `a` fails to build. -/
def exCfg : SchedConfig where
  subdag := ⟨["a", "b", "c"], [("a", "b"), ("b", "c")]⟩
  name2recipes := fun n => ["r-" ++ n]
  recipe2name := fun r => strDrop r 2
  recipe_targets := fun _ => [⟨"e", "p"⟩]
  buildFn := fun r _ => ⟨r != "r-a", none⟩
  testonly := false
  anaconda_upload := false
  mulled_upload_target := none
  anacondaUploadFn := fun _ => true
  mulledUploadFn := fun _ _ => true

/-- A concrete one-recipe scheduling run whose build succeeds with a test
image, with a mulled upload target configured whose upload collaborator
fails. -/
def exCfgMulled : SchedConfig where
  subdag := ⟨["a"], []⟩
  name2recipes := fun _ => ["r"]
  recipe2name := fun _ => "a"
  recipe_targets := fun _ => [⟨"e", "p"⟩]
  buildFn := fun _ _ => ⟨true, some "img"⟩
  testonly := false
  anaconda_upload := false
  mulled_upload_target := some "quay"
  anacondaUploadFn := fun _ => true
  mulledUploadFn := fun _ _ => false

end Bioconda

namespace Bioconda

/-! # Theorems

## Classifier lemmas (update_pinnings.py) -/

/-- The inline if/elif chain of `check`'s loop coincides with first-match
selection over the spec's precedence list. -/
theorem variantFlag_eq_spec (repo : List PkgRecord) (keys : List String)
    (meta : MetaData) :
    variantFlag repo keys meta = classifyVariantSpec repo keys meta := by
  simp only [variantFlag, classifyVariantSpec, precedenceList, firstMatch]

/-- The per-variant classification sets exactly one flag. -/
theorem classifyVariantSpec_flagCount (repo : List PkgRecord) (keys : List String)
    (meta : MetaData) :
    (classifyVariantSpec repo keys meta).flagCount = 1 := by
  simp only [classifyVariantSpec, precedenceList, firstMatch]
  split_ifs <;> rfl

/-- `has_invalid_build_string` holds exactly for an empty build string or one
with a character outside the allowed class. -/
theorem has_invalid_build_string_iff (meta : MetaData) :
    has_invalid_build_string meta = true ↔
      (meta.build_id = "" ∨
       ∃ c ∈ meta.build_id.toList, allowedBuildStringChar c = false) := by
  simp only [has_invalid_build_string, Bool.not_eq_true', Bool.and_eq_false_iff,
    bne_eq_false_iff_eq, List.all_eq_false, Bool.not_eq_true]

/-- The loop of `check` computes the or-combination of the spec's per-variant
flags. -/
theorem check_foldl_eq_specFlags (repo : List PkgRecord) (keys : List String)
    (metas : List MetaData) :
    metas.foldl (fun flags meta => flags.union (variantFlag repo keys meta))
        State.zero = checkSpecFlags repo keys metas := by
  unfold checkSpecFlags
  rw [List.foldl_map]
  have h : (fun (flags : State) meta => flags.union (variantFlag repo keys meta)) =
      (fun flags meta => flags.union (classifyVariantSpec repo keys meta)) := by
    funext flags meta
    rw [variantFlag_eq_spec]
  rw [h]

/-- C4: check() returns exactly the FAIL singleton when rendering raises a
recoverable error or yields None, or when any rendered variant's build string
is empty or contains a character outside the allowed class; otherwise it
returns the or-combination over all variants of exactly one flag per variant
chosen by first-match precedence (SKIP, then HAVE_NOARCH_PYTHON, then HAVE,
then BUMPED, else BUMP). -/
theorem check_classification (repo : List PkgRecord) (keys : List String)
    (recipe : String) :
    (∀ render : RenderResult,
      (render = .raisedRecipeError ∨ render = .rendered none →
        check render repo keys recipe = (State.FAIL, recipe))) ∧
    (∀ metas : List MetaData,
      ((metas.any has_invalid_build_string = true →
        check (.rendered (some metas)) repo keys recipe = (State.FAIL, recipe)) ∧
       (metas.any has_invalid_build_string = false →
        check (.rendered (some metas)) repo keys recipe =
          (checkSpecFlags repo keys metas, recipe)))) ∧
    (∀ meta : MetaData,
      has_invalid_build_string meta = true ↔
        (meta.build_id = "" ∨
         ∃ c ∈ meta.build_id.toList, allowedBuildStringChar c = false)) ∧
    (∀ meta : MetaData,
      variantFlag repo keys meta = classifyVariantSpec repo keys meta ∧
      (classifyVariantSpec repo keys meta).flagCount = 1) := by
  refine ⟨?_, ?_, ?_, ?_⟩
  · rintro render (rfl | rfl) <;> rfl
  · intro metas
    constructor
    · intro h
      simp [check, h]
    · intro h
      simp [check, h, check_foldl_eq_specFlags]
  · intro meta
    exact has_invalid_build_string_iff meta
  · intro meta
    exact ⟨variantFlag_eq_spec repo keys meta,
           classifyVariantSpec_flagCount repo keys meta⟩

/-- C4 witness: evaluation of check() on a concrete failing render and a
concrete successful render of one HAVE variant. -/
theorem check_classification_witness :
    check .raisedRecipeError [] [] "r0" = (State.FAIL, "r0") ∧
    check (.rendered (some [⟨"x", "1", 0, "b0", none, false, [], [], []⟩]))
        [⟨"x", "1", "b0", 0, "linux"⟩] [] "r0" =
      (checkSpecFlags [⟨"x", "1", "b0", 0, "linux"⟩] []
        [⟨"x", "1", 0, "b0", none, false, [], [], []⟩], "r0") := by
  constructor
  · exact (check_classification [] [] "r0").1 .raisedRecipeError (Or.inl rfl)
  · exact ((check_classification [⟨"x", "1", "b0", 0, "linux"⟩] [] "r0").2.1
      [⟨"x", "1", 0, "b0", none, false, [], [], []⟩]).2 (by decide)

/-- C10: when a variant is not skipped, has no noarch match and no (exact or
legacy-normalized) build-string match, an empty index query for its
(name, version) on linux/noarch yields BUMPED (the all-smaller test is
vacuously true over an empty result), and BUMP arises only when some existing
record has build number at least the variant's. -/
theorem empty_index_gives_bumped (repo : List PkgRecord) (keys : List String)
    (meta : MetaData)
    (hskip : meta.skip = false)
    (hkeys : skip_for_variants meta keys = false)
    (hnoarch : have_noarch_python_build_number repo meta = false)
    (hhave : have_variant repo meta = false) :
    (get_package_data repo
        { name := some meta.name, version := some meta.version,
          platform := ["linux", "noarch"] } = [] →
      variantFlag repo keys meta = State.BUMPED) ∧
    (variantFlag repo keys meta = State.BUMP →
      ∃ r ∈ get_package_data repo
          { name := some meta.name, version := some meta.version,
            platform := ["linux", "noarch"] },
        meta.build_number ≤ r.build_number) := by
  constructor
  · intro hempty
    have hwill : will_build_variant repo meta = true := by
      simp [will_build_variant, hempty]
    simp [variantFlag, hskip, hkeys, hnoarch, hhave, hwill]
  · intro hbump
    have hwill : will_build_variant repo meta = false := by
      by_contra h
      have hw : will_build_variant repo meta = true := by
        revert h; cases will_build_variant repo meta <;> simp
      simp [variantFlag, hskip, hkeys, hnoarch, hhave, hw] at hbump
      exact absurd hbump (by decide)
    have := hwill
    unfold will_build_variant at this
    simp only [List.all_eq_false, Bool.not_eq_true, decide_eq_false_iff_not,
      List.mem_map, not_lt] at this
    obtain ⟨num, ⟨r, hr, rfl⟩, hge⟩ := this
    exact ⟨r, hr, hge⟩

/-- C10 witness: a variant with an empty index is classified BUMPED. -/
theorem empty_index_gives_bumped_witness :
    variantFlag [] [] ⟨"x", "1", 0, "b0", none, false, [], [], []⟩ =
      State.BUMPED :=
  (empty_index_gives_bumped [] [] ⟨"x", "1", 0, "b0", none, false, [], [], []⟩
    rfl rfl rfl rfl).1 rfl

/-- C7 counterexample: an unexpected (non-RecipeError) exception from the
render collaborator does not propagate out of check(); it is absorbed into the
FAIL state, because the source catches every `Exception` in its render step. -/
theorem check_absorbs_unexpected_render_error :
    check .raisedOther [] [] "r0" = (State.FAIL, "r0") := rfl

/-- C7 amended: in the Build Scheduler's build step, expected process-failure
signals (the docker and subprocess CalledProcessError classes) are converted
into a failed BuildResult while any other collaborator exception propagates
and aborts the run; in the Freshness Classifier's render step, however, every
exception — the recoverable RecipeError and unexpected ones alike — is caught
and converted into the FAIL state. -/
theorem build_error_classification (e : BuildEnv) :
    (((if e.docker_builder then e.dockerOutcome else e.runOutcome) =
          .raiseDockerCPE ∨
      (if e.docker_builder then e.dockerOutcome else e.runOutcome) =
          .raiseCalledProcess) →
      build e = .ok ⟨false, none⟩) ∧
    ((if e.docker_builder then e.dockerOutcome else e.runOutcome) = .raiseOther →
      build e = .error .unexpectedError) ∧
    (∀ (repo : List PkgRecord) (keys : List String) (recipe : String),
      check .raisedRecipeError repo keys recipe = (State.FAIL, recipe) ∧
      check .raisedOther repo keys recipe = (State.FAIL, recipe)) := by
  refine ⟨?_, ?_, ?_⟩
  · rintro (h | h) <;> simp [build, h]
  · intro h
    simp [build, h]
  · intro repo keys recipe
    exact ⟨rfl, rfl⟩

/-- C7 witness: evaluation on a concrete docker build raising the expected
container error, and a concrete shell build raising an unexpected error. -/
theorem build_error_classification_witness :
    build ⟨true, .raiseDockerCPE, true, .ok, false, 0, false, "i"⟩ =
      .ok ⟨false, none⟩ ∧
    build ⟨false, .ok, true, .raiseOther, false, 0, false, "i"⟩ =
      .error .unexpectedError := by
  constructor
  · exact (build_error_classification
      ⟨true, .raiseDockerCPE, true, .ok, false, 0, false, "i"⟩).1 (Or.inl rfl)
  · exact (build_error_classification
      ⟨false, .ok, true, .raiseOther, false, 0, false, "i"⟩).2.1 rfl

/-! ## Legacy build-string normalization (C8) -/

/-- Trimming the candidate `py38_abc123` keeps the tag exactly when `python`
is among the normalized dependency names, and otherwise strips it together
with the separating underscore. -/
theorem legacyTrim_py38 (deps : List String) :
    legacyTrim deps "py38_abc123" =
      if deps.contains "python" then "py38_abc123" else "abc123" := by
  have h1 : groupLast [("python", "py38")] "numpy" = none := rfl
  have h2 : groupLast [("python", "py38")] "python" = some "py38" := rfl
  have h3 : groupLast [("python", "py38")] "perl" = none := rfl
  have h4 : groupLast [("python", "py38")] "lua" = none := rfl
  have h5 : groupLast [("python", "py38")] "r_base" = none := rfl
  have h6 : groupLast [("python", "py38")] "mro_base" = none := rfl
  have hms : matchTags "py38_abc123" = [("python", "py38")] := by decide
  unfold legacyTrim
  rw [hms]
  simp only [legacyGroupNames, List.foldl_cons, List.foldl_nil, h1, h2, h3, h4,
    h5, h6]
  cases h : deps.contains "python" <;> decide

/-- C8: in the legacy normalization used by the HAVE check, a candidate index
build string `py38_abc123` counts as HAVE for a variant whose own build string
is `abc123` exactly when the variant declares no `python` entry among its
normalized build/host requirement names. -/
theorem legacy_python_tag_match (meta : MetaData) (repo : List PkgRecord)
    (hbid : meta.build_id = "abc123")
    (hrepo : repo = [⟨meta.name, meta.version, "py38_abc123",
                      meta.build_number, "linux"⟩]) :
    ("python" ∉ buildDepNames meta → have_variant repo meta = true) ∧
    ("python" ∈ buildDepNames meta → have_variant repo meta = false) := by
  subst hrepo
  have hexact : get_package_data
      [(⟨meta.name, meta.version, "py38_abc123", meta.build_number, "linux"⟩ :
        PkgRecord)]
      { name := some meta.name, version := some meta.version,
        build := some meta.build_id, platform := ["linux", "noarch"] } = [] := by
    simp [get_package_data, matchesQuery, hbid]
  have hfall : (get_package_data
      [(⟨meta.name, meta.version, "py38_abc123", meta.build_number, "linux"⟩ :
        PkgRecord)]
      { name := some meta.name, version := some meta.version,
        build_number := some meta.build_number,
        platform := ["linux", "noarch"] }).map (·.build) = ["py38_abc123"] := by
    simp [get_package_data, matchesQuery]
  constructor
  · intro hnotin
    have hc : (buildDepNames meta).contains "python" = false := by
      simpa using hnotin
    unfold have_variant
    rw [hexact]
    simp only [List.isEmpty_nil, Bool.not_true, if_false, Bool.not_false, if_true]
    rw [hfall]
    simp [legacyTrim_py38, hc, hbid, hnotin]
  · intro hin
    have hc : (buildDepNames meta).contains "python" = true := by
      simpa using hin
    unfold have_variant
    rw [hexact]
    simp only [List.isEmpty_nil, Bool.not_true, if_false, Bool.not_false, if_true]
    rw [hfall]
    simp [legacyTrim_py38, hc, hbid, hin]

/-- C8 witness: evaluation at a concrete variant both without and with the
`python` build dependency. -/
theorem legacy_python_tag_match_witness :
    have_variant [⟨"blast", "2.2", "py38_abc123", 1, "linux"⟩]
      ⟨"blast", "2.2", 1, "abc123", none, false, [], [], []⟩ = true ∧
    have_variant [⟨"blast", "2.2", "py38_abc123", 1, "linux"⟩]
      ⟨"blast", "2.2", 1, "abc123", none, false, [], ["python >=3.8"], []⟩ =
      false := by
  constructor
  · exact (legacy_python_tag_match
      ⟨"blast", "2.2", 1, "abc123", none, false, [], [], []⟩ _ rfl rfl).1
      (by decide)
  · exact (legacy_python_tag_match
      ⟨"blast", "2.2", 1, "abc123", none, false, [], ["python >=3.8"], []⟩ _
      rfl rfl).2 (by decide)

/-! ## Scheduler trace counting (C5) -/

/-- Purge counts add over trace concatenation. -/
theorem countPurge_append (a b : List Event) :
    countPurge (a ++ b) = countPurge a + countPurge b :=
  List.countP_append _ _ _

/-- Build-call counts add over trace concatenation. -/
theorem countBuild_append (a b : List Event) :
    countBuild (a ++ b) = countBuild a + countBuild b :=
  List.countP_append _ _ _

/-- Purge counts of the five singleton traces. -/
theorem countPurge_singletons (r : String) (t : Target) (bl : List String)
    (p : String) (i : Option String) (tg : String) (ok : Bool) :
    countPurge [Event.buildCall r t] = 0 ∧ countPurge [Event.purgeCall] = 1 ∧
    countPurge [Event.skipRecord r bl] = 0 ∧
    countPurge [Event.anacondaUp p ok] = 0 ∧
    countPurge [Event.mulledUp i tg ok] = 0 :=
  ⟨rfl, rfl, rfl, rfl, rfl⟩

/-- Build-call counts of the five singleton traces. -/
theorem countBuild_singletons (r : String) (t : Target) (bl : List String)
    (p : String) (i : Option String) (tg : String) (ok : Bool) :
    countBuild [Event.buildCall r t] = 1 ∧ countBuild [Event.purgeCall] = 0 ∧
    countBuild [Event.skipRecord r bl] = 0 ∧
    countBuild [Event.anacondaUp p ok] = 0 ∧
    countBuild [Event.mulledUp i tg ok] = 0 :=
  ⟨rfl, rfl, rfl, rfl, rfl⟩

/-- One target attempt emits exactly one build call and exactly one purge
call, on every branch of the attempt. -/
theorem processTarget_counts (cfg : SchedConfig) (name recipe : String)
    (acc : SchedState × Bool) (t : Target) :
    countPurge (processTarget cfg name recipe acc t).1.events =
      countPurge acc.1.events + 1 ∧
    countBuild (processTarget cfg name recipe acc t).1.events =
      countBuild acc.1.events + 1 := by
  cases hr : (cfg.buildFn recipe t).success <;>
    cases ht' : cfg.testonly <;>
    cases ha : cfg.anaconda_upload <;>
    cases hok : cfg.anacondaUploadFn t.pkg <;>
    rcases hm : cfg.mulled_upload_target with _ | tgt <;>
    simp [processTarget, hr, ht', ha, hok, hm, countPurge_append,
      countBuild_append, countPurge, countBuild]

/-- Folding the target loop over a target list adds one purge and one build
call per target. -/
theorem targetsFold_counts (cfg : SchedConfig) (name recipe : String) :
    ∀ (ts : List Target) (acc : SchedState × Bool),
    countPurge ((ts.foldl (processTarget cfg name recipe) acc).1.events) =
      countPurge acc.1.events + ts.length ∧
    countBuild ((ts.foldl (processTarget cfg name recipe) acc).1.events) =
      countBuild acc.1.events + ts.length := by
  intro ts
  induction ts with
  | nil => intro acc; simp
  | cons t ts ih =>
    intro acc
    have h1 := processTarget_counts cfg name recipe acc t
    have h2 := ih (processTarget cfg name recipe acc t)
    simp only [List.foldl_cons, List.length_cons]
    omega

/-- One recipe step preserves equality of purge and build-call counts. -/
theorem processRecipe_counts (cfg : SchedConfig) (s : SchedState) (r : String)
    (h : countPurge s.events = countBuild s.events) :
    countPurge (processRecipe cfg s r).events =
      countBuild (processRecipe cfg s r).events := by
  unfold processRecipe
  rcases hl : ledgerGet s.skip_dependent (cfg.recipe2name r) with _ | bl
  · simp only [hl]
    have hf := targetsFold_counts cfg (cfg.recipe2name r) r
      (cfg.recipe_targets r) (s, true)
    dsimp only at hf
    cases hb : ((cfg.recipe_targets r).foldl
        (processTarget cfg (cfg.recipe2name r) r) (s, true)).2
    · simp only [hb, Bool.false_eq_true, if_false]
      omega
    · simp only [hb, if_true]
      omega
  · simp only [hl]
    rw [countPurge_append, countBuild_append]
    simpa [countPurge, countBuild] using h

/-- The recipe fold preserves equality of purge and build-call counts. -/
theorem runFold_counts (cfg : SchedConfig) :
    ∀ (l : List String) (s : SchedState),
    countPurge s.events = countBuild s.events →
    countPurge ((l.foldl (processRecipe cfg) s).events) =
      countBuild ((l.foldl (processRecipe cfg) s).events) := by
  intro l
  induction l with
  | nil => intro s h; simpa
  | cons r l ih =>
    intro s h
    exact ih _ (processRecipe_counts cfg s r h)

/-- C5: in every completed scheduling run, purge() is invoked exactly once per
attempted Target — each target attempt emits exactly one build call and one
purge call on every branch (build failure, test failure, upload failure
recorded by result, and success), and over the whole run the number of purge
calls equals the number of target attempts. -/
theorem purge_once_per_attempt (cfg : SchedConfig) :
    (∀ (name recipe : String) (acc : SchedState × Bool) (t : Target),
      countPurge (processTarget cfg name recipe acc t).1.events =
        countPurge acc.1.events + 1 ∧
      countBuild (processTarget cfg name recipe acc t).1.events =
        countBuild acc.1.events + 1) ∧
    countPurge (runScheduler cfg).events = countBuild (runScheduler cfg).events := by
  constructor
  · exact fun name recipe acc t => processTarget_counts cfg name recipe acc t
  · exact runFold_counts cfg (scheduledRecipes cfg) initState rfl


/-! ## Upload failure handling (C6) -/

/-- C6 counterexample: a run whose only target builds successfully and whose
configured test-image (mulled) upload fails records no failed-upload entry and
still reports overall success — the mulled upload's result is discarded by the
code, so its failure is not recorded and does not contribute to overall
failure. -/
theorem mulled_upload_failure_not_recorded :
    (runScheduler exCfgMulled).failed_uploads = [] ∧
    schedulerResult exCfgMulled = true ∧
    Event.mulledUp (some "img") "quay" false ∈ (runScheduler exCfgMulled).events := by
  decide

/-- One target step: the observable state (everything but the ghost trace) and
the per-recipe success bit do not depend on the mulled upload collaborator. -/
theorem processTarget_mulled_independent (cfg : SchedConfig)
    (f : Option String → String → Bool) (name recipe : String)
    (acc1 acc2 : SchedState × Bool) (t : Target)
    (hobs : acc1.1.observables = acc2.1.observables) (hsnd : acc1.2 = acc2.2) :
    (processTarget { cfg with mulledUploadFn := f } name recipe acc1 t).1.observables =
      (processTarget cfg name recipe acc2 t).1.observables ∧
    (processTarget { cfg with mulledUploadFn := f } name recipe acc1 t).2 =
      (processTarget cfg name recipe acc2 t).2 := by
  simp only [SchedState.observables, Prod.mk.injEq] at hobs
  obtain ⟨h1, h2, h3, h4, h5, h6⟩ := hobs
  cases hr : (cfg.buildFn recipe t).success <;>
    cases ht' : cfg.testonly <;>
    cases ha : cfg.anaconda_upload <;>
    cases hok : cfg.anacondaUploadFn t.pkg <;>
    rcases hm : cfg.mulled_upload_target with _ | tgt <;>
    simp [processTarget, SchedState.observables, hr, ht', ha, hok, hm, h1, h2,
      h3, h4, h5, h6, hsnd]

/-- Target-loop fold version of the mulled-upload independence. -/
theorem targetsFold_mulled_independent (cfg : SchedConfig)
    (f : Option String → String → Bool) (name recipe : String) :
    ∀ (ts : List Target) (acc1 acc2 : SchedState × Bool),
    acc1.1.observables = acc2.1.observables → acc1.2 = acc2.2 →
    (ts.foldl (processTarget { cfg with mulledUploadFn := f } name recipe) acc1).1.observables =
      (ts.foldl (processTarget cfg name recipe) acc2).1.observables ∧
    (ts.foldl (processTarget { cfg with mulledUploadFn := f } name recipe) acc1).2 =
      (ts.foldl (processTarget cfg name recipe) acc2).2 := by
  intro ts
  induction ts with
  | nil => intro acc1 acc2 hobs hsnd; exact ⟨hobs, hsnd⟩
  | cons t ts ih =>
    intro acc1 acc2 hobs hsnd
    have h := processTarget_mulled_independent cfg f name recipe acc1 acc2 t hobs hsnd
    simpa only [List.foldl_cons] using ih _ _ h.1 h.2

/-- Recipe-step version of the mulled-upload independence. -/
theorem processRecipe_mulled_independent (cfg : SchedConfig)
    (f : Option String → String → Bool) (s1 s2 : SchedState) (r : String)
    (hobs : s1.observables = s2.observables) :
    (processRecipe { cfg with mulledUploadFn := f } s1 r).observables =
      (processRecipe cfg s2 r).observables := by
  have hobs' := hobs
  simp only [SchedState.observables, Prod.mk.injEq] at hobs'
  obtain ⟨h1, h2, h3, h4, h5, h6⟩ := hobs'
  unfold processRecipe
  rcases hl : ledgerGet s2.skip_dependent (cfg.recipe2name r) with _ | bl
  · have hl1 : ledgerGet s1.skip_dependent (cfg.recipe2name r) = none := by
      rw [h6]; exact hl
    simp only [hl, hl1]
    have hf := targetsFold_mulled_independent cfg f (cfg.recipe2name r) r
      (cfg.recipe_targets r) (s1, true) (s2, true) hobs rfl
    rcases hf with ⟨hfo, hfs⟩
    have hfo' := hfo
    simp only [SchedState.observables, Prod.mk.injEq] at hfo'
    obtain ⟨g1, g2, g3, g4, g5, g6⟩ := hfo'
    rw [hfs]
    cases hb : ((cfg.recipe_targets r).foldl
        (processTarget cfg (cfg.recipe2name r) r) (s2, true)).2 <;>
      simp [SchedState.observables, g1, g2, g3, g4, g5, g6]
  · have hl1 : ledgerGet s1.skip_dependent (cfg.recipe2name r) = some bl := by
      rw [h6]; exact hl
    simp [hl, hl1, SchedState.observables, h1, h2, h3, h4, h5, h6]

/-- A successful target attempt leaves the failed list and the skip ledger
unchanged. -/
theorem processTarget_success_keeps (cfg : SchedConfig) (name recipe : String)
    (acc : SchedState × Bool) (t : Target)
    (hr : (cfg.buildFn recipe t).success = true) :
    (processTarget cfg name recipe acc t).1.failed = acc.1.failed ∧
    (processTarget cfg name recipe acc t).1.skip_dependent =
      acc.1.skip_dependent := by
  cases ht' : cfg.testonly <;>
    cases ha : cfg.anaconda_upload <;>
    cases hok : cfg.anacondaUploadFn t.pkg <;>
    rcases hm : cfg.mulled_upload_target with _ | tgt <;>
    simp [processTarget, hr, ht', ha, hok, hm]

/-- A target loop whose builds all succeed leaves the failed list and the skip
ledger unchanged. -/
theorem targetsFold_success_keeps (cfg : SchedConfig) (name recipe : String)
    (hs : ∀ t, (cfg.buildFn recipe t).success = true) :
    ∀ (ts : List Target) (acc : SchedState × Bool),
    (ts.foldl (processTarget cfg name recipe) acc).1.failed = acc.1.failed ∧
    (ts.foldl (processTarget cfg name recipe) acc).1.skip_dependent =
      acc.1.skip_dependent := by
  intro ts
  induction ts with
  | nil => intro acc; exact ⟨rfl, rfl⟩
  | cons t ts ih =>
    intro acc
    have h1 := processTarget_success_keeps cfg name recipe acc t (hs t)
    have h2 := ih (processTarget cfg name recipe acc t)
    simp only [List.foldl_cons]
    exact ⟨h2.1.trans h1.1, h2.2.trans h1.2⟩

/-- A recipe step whose builds all succeed leaves the failed list and the skip
ledger unchanged. -/
theorem processRecipe_success_keeps (cfg : SchedConfig) (s : SchedState)
    (r : String) (hs : ∀ t, (cfg.buildFn r t).success = true) :
    (processRecipe cfg s r).failed = s.failed ∧
    (processRecipe cfg s r).skip_dependent = s.skip_dependent := by
  unfold processRecipe
  rcases hl : ledgerGet s.skip_dependent (cfg.recipe2name r) with _ | bl
  · simp only [hl]
    have hf := targetsFold_success_keeps cfg (cfg.recipe2name r) r hs
      (cfg.recipe_targets r) (s, true)
    cases hb : ((cfg.recipe_targets r).foldl
        (processTarget cfg (cfg.recipe2name r) r) (s, true)).2 <;>
      simp only [hb, Bool.false_eq_true, if_false, if_true] <;>
      exact hf
  · simp [hl]

/-- C6 amended: the test-image upload is invoked for a successful build in a
non-test-only run with a distribution target configured, but its result is
discarded: no component of the run's report — in particular neither the
failed-upload list, the overall result, the failed set, nor the skip ledger —
depends on the mulled upload collaborator, so a failing test-image upload is
not recorded and does not contribute to overall failure; and a run in which
every build succeeds records no failures and no skip propagation regardless of
upload outcomes. -/
theorem mulled_upload_independent (cfg : SchedConfig)
    (f : Option String → String → Bool) :
    (∀ (name recipe : String) (acc : SchedState × Bool) (t : Target) (tgt : String),
      (cfg.buildFn recipe t).success = true → cfg.testonly = false →
      cfg.mulled_upload_target = some tgt →
      Event.mulledUp (cfg.buildFn recipe t).mulled_image tgt
          (cfg.mulledUploadFn (cfg.buildFn recipe t).mulled_image tgt) ∈
        (processTarget cfg name recipe acc t).1.events) ∧
    (runScheduler { cfg with mulledUploadFn := f }).observables =
      (runScheduler cfg).observables ∧
    schedulerResult { cfg with mulledUploadFn := f } = schedulerResult cfg ∧
    ((∀ r t, (cfg.buildFn r t).success = true) →
      (runScheduler cfg).failed = [] ∧ (runScheduler cfg).skip_dependent = []) := by
  have hrun : (runScheduler { cfg with mulledUploadFn := f }).observables =
      (runScheduler cfg).observables := by
    unfold runScheduler scheduledRecipes
    have key : ∀ (l : List String) (s1 s2 : SchedState),
        s1.observables = s2.observables →
        (l.foldl (processRecipe { cfg with mulledUploadFn := f }) s1).observables =
          (l.foldl (processRecipe cfg) s2).observables := by
      intro l
      induction l with
      | nil => intro s1 s2 h; simpa
      | cons r l ih =>
        intro s1 s2 h
        exact ih _ _ (processRecipe_mulled_independent cfg f s1 s2 r h)
    exact key _ initState initState rfl
  refine ⟨?_, hrun, ?_, ?_⟩
  · intro name recipe acc t tgt hr ht' hm
    cases ha : cfg.anaconda_upload <;>
      cases hok : cfg.anacondaUploadFn t.pkg <;>
      simp [processTarget, hr, ht', hm, ha, hok]
  · have h := hrun
    simp only [SchedState.observables, Prod.mk.injEq] at h
    obtain ⟨h1, h2, h3, h4, h5, h6⟩ := h
    simp only [schedulerResult]
    rw [h1, h4, h5]
  · intro hall
    have key : ∀ (l : List String) (s : SchedState),
        (l.foldl (processRecipe cfg) s).failed = s.failed ∧
        (l.foldl (processRecipe cfg) s).skip_dependent = s.skip_dependent := by
      intro l
      induction l with
      | nil => intro s; exact ⟨rfl, rfl⟩
      | cons r l ih =>
        intro s
        have h1 := processRecipe_success_keeps cfg s r (fun t => hall r t)
        have h2 := ih (processRecipe cfg s r)
        simp only [List.foldl_cons]
        exact ⟨h2.1.trans h1.1, h2.2.trans h1.2⟩
    exact key (scheduledRecipes cfg) initState

/-- C6 amended-claim witness: the independence applied to the concrete mulled
failing run, with its all-successful build oracle. -/
theorem mulled_upload_independent_witness :
    (runScheduler exCfgMulled).failed = [] ∧
    (runScheduler exCfgMulled).skip_dependent = [] :=
  (mulled_upload_independent exCfgMulled (fun _ _ => true)).2.2.2
    (fun _ _ => rfl)


/-! ## Scheduler run facts (C9, C2, C1) -/

/-- One target attempt never touches the skipped or built lists, and composes
the per-recipe success bit with the attempt's success. -/
theorem processTarget_basic (cfg : SchedConfig) (name recipe : String)
    (acc : SchedState × Bool) (t : Target) :
    (processTarget cfg name recipe acc t).1.skipped_recipes =
      acc.1.skipped_recipes ∧
    (processTarget cfg name recipe acc t).1.built_recipes =
      acc.1.built_recipes ∧
    (processTarget cfg name recipe acc t).2 =
      (acc.2 && (cfg.buildFn recipe t).success) := by
  cases hr : (cfg.buildFn recipe t).success <;>
    cases ht' : cfg.testonly <;>
    cases ha : cfg.anaconda_upload <;>
    cases hok : cfg.anacondaUploadFn t.pkg <;>
    rcases hm : cfg.mulled_upload_target with _ | tgt <;>
    simp [processTarget, hr, ht', ha, hok, hm]

/-- One target attempt only appends to the trace, and the appended block
contains its build call. -/
theorem processTarget_events (cfg : SchedConfig) (name recipe : String)
    (acc : SchedState × Bool) (t : Target) :
    ∃ es, (processTarget cfg name recipe acc t).1.events =
      acc.1.events ++ (Event.buildCall recipe t :: es) := by
  cases hr : (cfg.buildFn recipe t).success <;>
    cases ht' : cfg.testonly <;>
    cases ha : cfg.anaconda_upload <;>
    cases hok : cfg.anacondaUploadFn t.pkg <;>
    rcases hm : cfg.mulled_upload_target with _ | tgt <;>
    simp [processTarget, hr, ht', ha, hok, hm]

/-- The target loop never touches the skipped or built lists, computes the
conjunction of all attempt outcomes, and only appends to the trace. -/
theorem targetsFold_basic (cfg : SchedConfig) (name recipe : String) :
    ∀ (ts : List Target) (acc : SchedState × Bool),
    (ts.foldl (processTarget cfg name recipe) acc).1.skipped_recipes =
      acc.1.skipped_recipes ∧
    (ts.foldl (processTarget cfg name recipe) acc).1.built_recipes =
      acc.1.built_recipes ∧
    (ts.foldl (processTarget cfg name recipe) acc).2 =
      (acc.2 && ts.all (fun t => (cfg.buildFn recipe t).success)) ∧
    (∃ es, (ts.foldl (processTarget cfg name recipe) acc).1.events =
      acc.1.events ++ es) := by
  intro ts
  induction ts with
  | nil => intro acc; exact ⟨rfl, rfl, by simp, [], by simp⟩
  | cons t ts ih =>
    intro acc
    have h1 := processTarget_basic cfg name recipe acc t
    have h2 := ih (processTarget cfg name recipe acc t)
    obtain ⟨e1, he1⟩ := processTarget_events cfg name recipe acc t
    obtain ⟨g1, g2, g3, e2, he2⟩ := h2
    refine ⟨?_, ?_, ?_, ?_⟩
    · simp only [List.foldl_cons]
      exact g1.trans h1.1
    · simp only [List.foldl_cons]
      exact g2.trans h1.2.1
    · simp only [List.foldl_cons, List.all_cons]
      rw [g3, h1.2.2, Bool.and_assoc]
    · refine ⟨Event.buildCall recipe t :: e1 ++ e2, ?_⟩
      simp only [List.foldl_cons]
      rw [he2, he1]
      simp

/-- Every target of the loop has its build call in the resulting trace. -/
theorem targetsFold_buildCall_mem (cfg : SchedConfig) (name recipe : String) :
    ∀ (ts : List Target) (acc : SchedState × Bool), ∀ t ∈ ts,
    Event.buildCall recipe t ∈
      (ts.foldl (processTarget cfg name recipe) acc).1.events := by
  intro ts
  induction ts with
  | nil => intro acc t ht; cases ht
  | cons t0 ts ih =>
    intro acc t ht
    simp only [List.foldl_cons]
    rcases List.mem_cons.mp ht with rfl | hmem
    · obtain ⟨_, _, _, es, hes⟩ :=
        targetsFold_basic cfg name recipe ts (processTarget cfg name recipe acc t)
      rw [hes]
      obtain ⟨e1, he1⟩ := processTarget_events cfg name recipe acc t
      rw [he1]
      simp
    · exact ih _ t hmem

/-- A recipe step whose package name is in the skip ledger only records the
skip. -/
theorem processRecipe_skip_eq (cfg : SchedConfig) (s : SchedState) (r : String)
    (bl : List String)
    (hl : ledgerGet s.skip_dependent (cfg.recipe2name r) = some bl) :
    processRecipe cfg s r =
      { s with skipped_recipes := s.skipped_recipes ++ [r],
               events := s.events ++ [Event.skipRecord r bl] } := by
  simp [processRecipe, hl]

/-- A recipe step only appends to the skipped and built lists and to the
trace. -/
theorem processRecipe_mono (cfg : SchedConfig) (s : SchedState) (r : String) :
    (∃ xs, (processRecipe cfg s r).skipped_recipes = s.skipped_recipes ++ xs) ∧
    (∃ xs, (processRecipe cfg s r).built_recipes = s.built_recipes ++ xs) ∧
    (∃ es, (processRecipe cfg s r).events = s.events ++ es) := by
  unfold processRecipe
  rcases hl : ledgerGet s.skip_dependent (cfg.recipe2name r) with _ | bl
  · simp only [hl]
    obtain ⟨g1, g2, g3, es, hes⟩ :=
      targetsFold_basic cfg (cfg.recipe2name r) r (cfg.recipe_targets r) (s, true)
    cases hb : ((cfg.recipe_targets r).foldl
        (processTarget cfg (cfg.recipe2name r) r) (s, true)).2
    · simp only [hb, Bool.false_eq_true, if_false]
      exact ⟨⟨[], by simp [g1]⟩, ⟨[], by simp [g2]⟩, ⟨es, hes⟩⟩
    · simp only [hb, if_true]
      exact ⟨⟨[], by simp [g1]⟩, ⟨[r], by simp [g2]⟩, ⟨es, hes⟩⟩
  · simp only [hl]
    exact ⟨⟨[r], rfl⟩, ⟨[], by simp⟩, ⟨[Event.skipRecord r bl], rfl⟩⟩

/-- The recipe fold only appends to the skipped and built lists and to the
trace. -/
theorem runFold_mono (cfg : SchedConfig) :
    ∀ (l : List String) (s : SchedState),
    (∃ xs, (l.foldl (processRecipe cfg) s).skipped_recipes =
      s.skipped_recipes ++ xs) ∧
    (∃ xs, (l.foldl (processRecipe cfg) s).built_recipes =
      s.built_recipes ++ xs) ∧
    (∃ es, (l.foldl (processRecipe cfg) s).events = s.events ++ es) := by
  intro l
  induction l with
  | nil => intro s; exact ⟨⟨[], by simp⟩, ⟨[], by simp⟩, ⟨[], by simp⟩⟩
  | cons r l ih =>
    intro s
    obtain ⟨⟨x1, hx1⟩, ⟨x2, hx2⟩, ⟨x3, hx3⟩⟩ := processRecipe_mono cfg s r
    obtain ⟨⟨y1, hy1⟩, ⟨y2, hy2⟩, ⟨y3, hy3⟩⟩ := ih (processRecipe cfg s r)
    simp only [List.foldl_cons]
    exact ⟨⟨x1 ++ y1, by rw [hy1, hx1, List.append_assoc]⟩,
           ⟨x2 ++ y2, by rw [hy2, hx2, List.append_assoc]⟩,
           ⟨x3 ++ y3, by rw [hy3, hx3, List.append_assoc]⟩⟩

/-- Where a built-list entry can come from: it was already present, or it is
the processed recipe and every one of its targets succeeded. -/
theorem processRecipe_built_src (cfg : SchedConfig) (s : SchedState)
    (r x : String) (hx : x ∈ (processRecipe cfg s r).built_recipes) :
    x ∈ s.built_recipes ∨
    (x = r ∧ ∀ t ∈ cfg.recipe_targets r, (cfg.buildFn r t).success = true) := by
  revert hx
  unfold processRecipe
  rcases hl : ledgerGet s.skip_dependent (cfg.recipe2name r) with _ | bl
  · simp only [hl]
    obtain ⟨g1, g2, g3, es, hes⟩ :=
      targetsFold_basic cfg (cfg.recipe2name r) r (cfg.recipe_targets r) (s, true)
    cases hb : ((cfg.recipe_targets r).foldl
        (processTarget cfg (cfg.recipe2name r) r) (s, true)).2
    · simp only [hb, Bool.false_eq_true, if_false]
      intro hx
      rw [g2] at hx
      exact Or.inl hx
    · simp only [hb, if_true]
      intro hx
      rcases List.mem_append.mp hx with hx' | hx'
      · rw [g2] at hx'
        exact Or.inl hx'
      · refine Or.inr ⟨List.mem_singleton.mp hx', ?_⟩
        rw [hb] at g3
        have hall : (cfg.recipe_targets r).all
            (fun t => (cfg.buildFn r t).success) = true := by
          simpa using g3.symm
        intro t ht
        exact List.all_eq_true.mp hall t ht
  · simp only [hl]
    intro hx
    exact Or.inl hx

/-- Where a built-list entry of the whole fold can come from. -/
theorem runFold_built_src (cfg : SchedConfig) :
    ∀ (l : List String) (s : SchedState) (x : String),
    x ∈ (l.foldl (processRecipe cfg) s).built_recipes →
    x ∈ s.built_recipes ∨
    (∀ t ∈ cfg.recipe_targets x, (cfg.buildFn x t).success = true) := by
  intro l
  induction l with
  | nil => intro s x hx; exact Or.inl hx
  | cons r l ih =>
    intro s x hx
    simp only [List.foldl_cons] at hx
    rcases ih _ x hx with hx' | hx'
    · rcases processRecipe_built_src cfg s r x hx' with h | ⟨rfl, h⟩
      · exact Or.inl h
      · exact Or.inr h
    · exact Or.inr hx'


/-- C9: a recipe that is scheduled, is not skipped, has at least one target
and whose targets all succeed appears in the built set; a recipe with any
failing target never appears in the built set; and every target of a
scheduled, unskipped recipe is attempted (its build call is in the trace and
is never rolled back). -/
theorem built_set_characterization (cfg : SchedConfig) (r : String) :
    (r ∈ scheduledRecipes cfg → r ∉ (runScheduler cfg).skipped_recipes →
     cfg.recipe_targets r ≠ [] →
     (∀ t ∈ cfg.recipe_targets r, (cfg.buildFn r t).success = true) →
     r ∈ (runScheduler cfg).built_recipes) ∧
    ((∃ t ∈ cfg.recipe_targets r, (cfg.buildFn r t).success = false) →
     r ∉ (runScheduler cfg).built_recipes) ∧
    (r ∈ scheduledRecipes cfg → r ∉ (runScheduler cfg).skipped_recipes →
     ∀ t ∈ cfg.recipe_targets r, Event.buildCall r t ∈ (runScheduler cfg).events) := by
  refine ⟨?_, ?_, ?_⟩
  · intro hr hns hne hsucc
    obtain ⟨l1, l2, hsplit⟩ := List.append_of_mem hr
    have hfinal : runScheduler cfg =
        l2.foldl (processRecipe cfg)
          (processRecipe cfg (l1.foldl (processRecipe cfg) initState) r) := by
      rw [runScheduler, hsplit, List.foldl_append, List.foldl_cons]
    rw [hfinal] at hns ⊢
    set s1 := l1.foldl (processRecipe cfg) initState with hs1
    rcases hl : ledgerGet s1.skip_dependent (cfg.recipe2name r) with _ | bl
    · have hstep : r ∈ (processRecipe cfg s1 r).built_recipes := by
        obtain ⟨g1, g2, g3, es, hes⟩ := targetsFold_basic cfg (cfg.recipe2name r)
          r (cfg.recipe_targets r) (s1, true)
        have hall : (cfg.recipe_targets r).all
            (fun t => (cfg.buildFn r t).success) = true :=
          List.all_eq_true.mpr hsucc
        have hout2 : ((cfg.recipe_targets r).foldl
            (processTarget cfg (cfg.recipe2name r) r) (s1, true)).2 = true := by
          rw [g3]
          simpa using hall
        simp [processRecipe, hl, hout2]
      obtain ⟨_, ⟨xs, hxs⟩, _⟩ := runFold_mono cfg l2 (processRecipe cfg s1 r)
      rw [hxs]
      exact List.mem_append_left _ hstep
    · exfalso
      apply hns
      have hstep : r ∈ (processRecipe cfg s1 r).skipped_recipes := by
        rw [processRecipe_skip_eq cfg s1 r bl hl]
        simp
      obtain ⟨⟨xs, hxs⟩, _, _⟩ := runFold_mono cfg l2 (processRecipe cfg s1 r)
      rw [hxs]
      exact List.mem_append_left _ hstep
  · rintro ⟨t, ht, hfail⟩ hmem
    rcases runFold_built_src cfg (scheduledRecipes cfg) initState r hmem with h | h
    · cases h
    · rw [h t ht] at hfail
      cases hfail
  · intro hr hns t ht
    obtain ⟨l1, l2, hsplit⟩ := List.append_of_mem hr
    have hfinal : runScheduler cfg =
        l2.foldl (processRecipe cfg)
          (processRecipe cfg (l1.foldl (processRecipe cfg) initState) r) := by
      rw [runScheduler, hsplit, List.foldl_append, List.foldl_cons]
    rw [hfinal] at hns ⊢
    set s1 := l1.foldl (processRecipe cfg) initState with hs1
    rcases hl : ledgerGet s1.skip_dependent (cfg.recipe2name r) with _ | bl
    · have hstep : Event.buildCall r t ∈ (processRecipe cfg s1 r).events := by
        have hmem' := targetsFold_buildCall_mem cfg (cfg.recipe2name r) r
          (cfg.recipe_targets r) (s1, true) t ht
        simp only [processRecipe, hl]
        cases hb : ((cfg.recipe_targets r).foldl
            (processTarget cfg (cfg.recipe2name r) r) (s1, true)).2 <;>
          simpa [hb] using hmem'
      obtain ⟨_, _, ⟨es, hes⟩⟩ := runFold_mono cfg l2 (processRecipe cfg s1 r)
      rw [hes]
      exact List.mem_append_left _ hstep
    · exfalso
      apply hns
      have hstep : r ∈ (processRecipe cfg s1 r).skipped_recipes := by
        rw [processRecipe_skip_eq cfg s1 r bl hl]
        simp
      obtain ⟨⟨xs, hxs⟩, _, _⟩ := runFold_mono cfg l2 (processRecipe cfg s1 r)
      rw [hxs]
      exact List.mem_append_left _ hstep

/-- C9 witness: the successful one-recipe run builds its recipe; the chain run
whose first recipe fails never lists it as built. -/
theorem built_set_characterization_witness :
    "r" ∈ (runScheduler exCfgMulled).built_recipes ∧
    "r-a" ∉ (runScheduler exCfg).built_recipes := by
  constructor
  · exact (built_set_characterization exCfgMulled "r").1 (by decide) (by decide)
      (by decide) (by decide)
  · exact (built_set_characterization exCfg "r-a").2.1
      ⟨⟨"e", "p"⟩, by decide, by decide⟩


/-! ## Reachability closure (descendants) -/

/-- Successor membership characterizes the edge relation. -/
theorem mem_succs (edges : List (String × String)) (x m : String) :
    m ∈ succs edges x ↔ (x, m) ∈ edges := by
  constructor
  · intro h
    obtain ⟨e, he, rfl⟩ := List.mem_map.mp h
    have he' := List.mem_filter.mp he
    have hx : e.1 = x := by simpa using he'.2
    have : e = (x, e.2) := by
      rw [← hx]
    rw [← this]
    exact he'.1
  · intro h
    refine List.mem_map.mpr ⟨(x, m), List.mem_filter.mpr ⟨h, by simp⟩, rfl⟩

/-- A list without duplicates is no longer than any list containing it. -/
theorem nodup_length_le (l u : List String) (h : l.Nodup) (hsub : l ⊆ u) :
    l.length ≤ u.length := by
  calc l.length = l.toFinset.card := (List.toFinset_card_of_nodup h).symm
    _ ≤ u.toFinset.card := Finset.card_le_card (fun x hx => by
        rw [List.mem_toFinset] at hx ⊢
        exact hsub hx)
    _ ≤ u.length := u.toFinset_card_le

/-- One closure step keeps the list duplicate-free. -/
theorem closeStep_nodup (edges : List (String × String)) (s : List String)
    (h : s.Nodup) : (closeStep edges s).Nodup := by
  refine List.Nodup.append h ((s.flatMap (succs edges)).nodup_dedup.filter _) ?_
  intro x hx hx'
  have := (List.mem_filter.mp hx').2
  simp at this
  exact this hx

/-- One closure step stays inside any superset closed over edge targets. -/
theorem closeStep_sub (edges : List (String × String)) (s univ : List String)
    (hs : s ⊆ univ) (he : ∀ p ∈ edges, p.2 ∈ univ) :
    closeStep edges s ⊆ univ := by
  intro x hx
  rcases List.mem_append.mp hx with hx' | hx'
  · exact hs hx'
  · have hx2 := (List.mem_filter.mp hx').1
    have hx3 := (List.mem_dedup.mp hx2)
    obtain ⟨y, _, hy⟩ := List.mem_flatMap.mp hx3
    exact he _ ((mem_succs edges y x).mp hy)

/-- A non-trivial closure step strictly grows the list. -/
theorem closeStep_grow (edges : List (String × String)) (s : List String)
    (h : closeStep edges s ≠ s) :
    s.length + 1 ≤ (closeStep edges s).length := by
  unfold closeStep at *
  rcases hadds : (s.flatMap (succs edges)).dedup.filter (fun x => !s.contains x) with _ | ⟨a, adds⟩
  · exfalso
    apply h
    rw [hadds]
    simp
  · simp

/-- The start set is contained in the fuel-bounded closure. -/
theorem closeFuel_start_sub (edges : List (String × String)) :
    ∀ (f : Nat) (s : List String), s ⊆ closeFuel f edges s := by
  intro f
  induction f with
  | zero => intro s; exact fun x hx => hx
  | succ f ih =>
    intro s
    unfold closeFuel
    by_cases h : closeStep edges s = s
    · simp only [h, if_pos rfl]
      exact fun x hx => hx
    · simp only [if_neg h]
      intro x hx
      exact ih (closeStep edges s) (List.mem_append_left _ hx)

/-- With enough fuel the closure reaches a fixed point of the step
function. -/
theorem closeFuel_closed (edges : List (String × String)) (univ : List String)
    (he : ∀ p ∈ edges, p.2 ∈ univ) :
    ∀ (f : Nat) (s : List String), s.Nodup → s ⊆ univ →
    univ.length ≤ f + s.length →
    closeStep edges (closeFuel f edges s) = closeFuel f edges s := by
  intro f
  induction f with
  | zero =>
    intro s hnd hsub hlen
    unfold closeFuel
    by_contra hne
    have h1 := closeStep_grow edges s hne
    have h2 := nodup_length_le (closeStep edges s) univ
      (closeStep_nodup edges s hnd) (closeStep_sub edges s univ hsub he)
    omega
  | succ f ih =>
    intro s hnd hsub hlen
    unfold closeFuel
    by_cases h : closeStep edges s = s
    · simp only [h, if_pos rfl]
      exact h
    · simp only [if_neg h]
      refine ih (closeStep edges s) (closeStep_nodup edges s hnd)
        (closeStep_sub edges s univ hsub he) ?_
      have := closeStep_grow edges s h
      omega

/-- A fixed point of the step function is closed under taking successors. -/
theorem closed_succ (edges : List (String × String)) (t : List String)
    (h : closeStep edges t = t) (x y : String) (hx : x ∈ t)
    (hxy : (x, y) ∈ edges) : y ∈ t := by
  by_contra hy
  have hy1 : y ∈ (t.flatMap (succs edges)).dedup.filter (fun z => !t.contains z) := by
    refine List.mem_filter.mpr ⟨List.mem_dedup.mpr ?_, by simpa⟩
    exact List.mem_flatMap.mpr ⟨x, hx, (mem_succs edges x y).mpr hxy⟩
  have : (closeStep edges t).length = t.length := by rw [h]
  unfold closeStep at this
  rcases hadds : (t.flatMap (succs edges)).dedup.filter (fun z => !t.contains z) with _ | ⟨a, adds⟩
  · rw [hadds] at hy1
    cases hy1
  · rw [hadds] at this
    simp at this

/-- Completeness of the computed forward-reachable set: everything reachable
along edges from `n` is in `reachableFrom`. -/
theorem reachableFrom_complete (g : DiGraph) (n m : String)
    (h : Relation.ReflTransGen (edgeStep g) n m) : m ∈ reachableFrom g n := by
  have hclosed : closeStep g.edges (reachableFrom g n) = reachableFrom g n := by
    refine closeFuel_closed g.edges (n :: g.edges.map Prod.snd).dedup
      (fun p hp => List.mem_dedup.mpr (List.mem_cons_of_mem _
        (List.mem_map.mpr ⟨p, hp, rfl⟩)))
      (g.edges.length + 1) [n] (List.nodup_singleton n)
      (fun x hx => List.mem_dedup.mpr (by
        rcases List.mem_singleton.mp hx with rfl
        exact List.mem_cons_self _ _)) ?_
    calc (n :: g.edges.map Prod.snd).dedup.length
        ≤ (n :: g.edges.map Prod.snd).length := List.Sublist.length_le
          (List.dedup_sublist _)
      _ = g.edges.length + 1 := by simp
      _ ≤ (g.edges.length + 1) + [n].length := by simp
  induction h with
  | refl =>
    exact closeFuel_start_sub g.edges (g.edges.length + 1) [n]
      (List.mem_singleton_self n)
  | tail h' step ih =>
    exact closed_succ g.edges (reachableFrom g n) hclosed _ _ ih step

/-- Completeness of the modelled `networkx.descendants`: every strict
transitive successor of `n` is listed. -/
theorem descendants_complete (g : DiGraph) (n m : String)
    (h : Relation.TransGen (edgeStep g) n m) (hne : m ≠ n) :
    m ∈ descendants g n := by
  refine List.mem_filter.mpr ⟨reachableFrom_complete g n m h.to_reflTransGen, ?_⟩
  simpa using hne


/-! ## Skip-ledger lemmas (C2) -/

/-- Appending under a name extends exactly that entry. -/
theorem ledgerGet_ledgerAdd_self (l : List (String × List String))
    (n r : String) :
    ledgerGet (ledgerAdd l n r) n = some ((ledgerGet l n).getD [] ++ [r]) := by
  induction l with
  | nil => simp [ledgerAdd, ledgerGet]
  | cons p l ih =>
    obtain ⟨m, rs⟩ := p
    cases hb : m == n
    · simp only [ledgerAdd, ledgerGet, hb, Bool.false_eq_true, if_false]
      exact ih
    · simp [ledgerAdd, ledgerGet, hb]

/-- Appending under a name leaves the other entries unchanged. -/
theorem ledgerGet_ledgerAdd_other (l : List (String × List String))
    (n n' r : String) (h : n' ≠ n) :
    ledgerGet (ledgerAdd l n r) n' = ledgerGet l n' := by
  induction l with
  | nil =>
    have : (n == n') = false := by
      simpa using fun e => h e.symm
    simp [ledgerAdd, ledgerGet, this]
  | cons p l ih =>
    obtain ⟨m, rs⟩ := p
    cases hb : m == n
    · simp only [ledgerAdd, ledgerGet, hb, Bool.false_eq_true, if_false]
      cases hb' : m == n' <;> simp [ledgerGet, hb', ih]
    · have hm : m = n := by simpa using hb
      subst hm
      have : (m == n') = false := by
        simpa using fun e => h e.symm
      simp [ledgerAdd, ledgerGet, hb, this]

/-- The appended recipe is recorded under the name it was appended to. -/
theorem ledgerMem_ledgerAdd_self (l : List (String × List String))
    (n r : String) : ledgerMem (ledgerAdd l n r) n r :=
  ⟨(ledgerGet l n).getD [] ++ [r], ledgerGet_ledgerAdd_self l n r,
   List.mem_append_right _ (List.mem_singleton_self r)⟩

/-- Ledger membership survives any further append. -/
theorem ledgerMem_ledgerAdd (l : List (String × List String))
    (n r n' r' : String) (h : ledgerMem l n r) :
    ledgerMem (ledgerAdd l n' r') n r := by
  obtain ⟨rs, hget, hmem⟩ := h
  by_cases hn : n = n'
  · subst hn
    refine ⟨(ledgerGet l n).getD [] ++ [r'], ledgerGet_ledgerAdd_self l n r', ?_⟩
    rw [hget]
    exact List.mem_append_left _ hmem
  · exact ⟨rs, by rw [ledgerGet_ledgerAdd_other l n' n r' hn]; exact hget, hmem⟩

/-- Folding appends over a name list records the recipe under every listed
name. -/
theorem ledgerMem_foldlAdd (r : String) :
    ∀ (ds : List String) (l : List (String × List String)),
    (∀ n x, ledgerMem l n x →
      ledgerMem (ds.foldl (fun l' n2 => ledgerAdd l' n2 r) l) n x) ∧
    (∀ m ∈ ds, ledgerMem (ds.foldl (fun l' n2 => ledgerAdd l' n2 r) l) m r) := by
  intro ds
  induction ds with
  | nil => intro l; exact ⟨fun n x h => h, fun m hm => absurd hm (List.not_mem_nil m)⟩
  | cons d ds ih =>
    intro l
    constructor
    · intro n x h
      simp only [List.foldl_cons]
      exact (ih (ledgerAdd l d r)).1 n x (ledgerMem_ledgerAdd l n x d r h)
    · intro m hm
      simp only [List.foldl_cons]
      rcases List.mem_cons.mp hm with rfl | hm'
      · exact (ih (ledgerAdd l m r)).1 m r (ledgerMem_ledgerAdd_self l m r)
      · exact (ih (ledgerAdd l d r)).2 m hm'

/-- A failing target attempt records the recipe under every descendant of its
package name; any attempt preserves existing ledger entries. -/
theorem processTarget_ledger (cfg : SchedConfig) (name recipe : String)
    (acc : SchedState × Bool) (t : Target) :
    ((cfg.buildFn recipe t).success = false →
      ∀ m ∈ descendants cfg.subdag name,
        ledgerMem (processTarget cfg name recipe acc t).1.skip_dependent m recipe) ∧
    (∀ n x, ledgerMem acc.1.skip_dependent n x →
      ledgerMem (processTarget cfg name recipe acc t).1.skip_dependent n x) := by
  constructor
  · intro hfail m hm
    have heq : (processTarget cfg name recipe acc t).1.skip_dependent =
        (descendants cfg.subdag name).foldl
          (fun l n2 => ledgerAdd l n2 recipe) acc.1.skip_dependent := by
      simp [processTarget, hfail]
    rw [heq]
    exact (ledgerMem_foldlAdd recipe (descendants cfg.subdag name)
      acc.1.skip_dependent).2 m hm
  · intro n x h
    cases hr : (cfg.buildFn recipe t).success
    · have heq : (processTarget cfg name recipe acc t).1.skip_dependent =
          (descendants cfg.subdag name).foldl
            (fun l n2 => ledgerAdd l n2 recipe) acc.1.skip_dependent := by
        simp [processTarget, hr]
      rw [heq]
      exact (ledgerMem_foldlAdd recipe (descendants cfg.subdag name)
        acc.1.skip_dependent).1 n x h
    · have heq : (processTarget cfg name recipe acc t).1.skip_dependent =
          acc.1.skip_dependent := by
        cases ht' : cfg.testonly <;>
          cases ha : cfg.anaconda_upload <;>
          cases hok : cfg.anacondaUploadFn t.pkg <;>
          rcases hm : cfg.mulled_upload_target with _ | tgt <;>
          simp [processTarget, hr, ht', ha, hok, hm]
      rw [heq]
      exact h

/-- Target-loop version: ledger entries are preserved, and a failing target in
the loop records the recipe under every descendant. -/
theorem targetsFold_ledger (cfg : SchedConfig) (name recipe : String) :
    ∀ (ts : List Target) (acc : SchedState × Bool),
    (∀ n x, ledgerMem acc.1.skip_dependent n x →
      ledgerMem ((ts.foldl (processTarget cfg name recipe) acc)).1.skip_dependent n x) ∧
    (∀ t ∈ ts, (cfg.buildFn recipe t).success = false →
      ∀ m ∈ descendants cfg.subdag name,
        ledgerMem ((ts.foldl (processTarget cfg name recipe) acc)).1.skip_dependent m recipe) := by
  intro ts
  induction ts with
  | nil =>
    intro acc
    exact ⟨fun n x h => h, fun t ht => absurd ht (List.not_mem_nil t)⟩
  | cons t0 ts ih =>
    intro acc
    constructor
    · intro n x h
      simp only [List.foldl_cons]
      exact (ih _).1 n x ((processTarget_ledger cfg name recipe acc t0).2 n x h)
    · intro t ht hfail m hm
      simp only [List.foldl_cons]
      rcases List.mem_cons.mp ht with rfl | ht'
      · exact (ih _).1 m recipe
          ((processTarget_ledger cfg name recipe acc t).1 hfail m hm)
      · exact (ih _).2 t ht' hfail m hm

/-- Recipe-step version: ledger entries are never removed. -/
theorem processRecipe_ledger_mono (cfg : SchedConfig) (s : SchedState)
    (r n x : String) (h : ledgerMem s.skip_dependent n x) :
    ledgerMem (processRecipe cfg s r).skip_dependent n x := by
  unfold processRecipe
  rcases hl : ledgerGet s.skip_dependent (cfg.recipe2name r) with _ | bl
  · simp only [hl]
    cases hb : ((cfg.recipe_targets r).foldl
        (processTarget cfg (cfg.recipe2name r) r) (s, true)).2 <;>
      simp only [hb, Bool.false_eq_true, if_false, if_true] <;>
      exact (targetsFold_ledger cfg (cfg.recipe2name r) r
        (cfg.recipe_targets r) (s, true)).1 n x h
  · simpa [hl] using h

/-- Fold version: ledger entries are never removed over the run. -/
theorem runFold_ledger_mono (cfg : SchedConfig) :
    ∀ (l : List String) (s : SchedState) (n x : String),
    ledgerMem s.skip_dependent n x →
    ledgerMem ((l.foldl (processRecipe cfg) s)).skip_dependent n x := by
  intro l
  induction l with
  | nil => intro s n x h; exact h
  | cons r l ih =>
    intro s n x h
    simp only [List.foldl_cons]
    exact ih _ n x (processRecipe_ledger_mono cfg s r n x h)

/-- Skipped-recipe membership is never removed over the run. -/
theorem runFold_skipped_mono (cfg : SchedConfig) (l : List String)
    (s : SchedState) (x : String) (h : x ∈ s.skipped_recipes) :
    x ∈ ((l.foldl (processRecipe cfg) s)).skipped_recipes := by
  obtain ⟨⟨xs, hxs⟩, _, _⟩ := runFold_mono cfg l s
  rw [hxs]
  exact List.mem_append_left _ h

/-- A build call in a target attempt's trace was already there or names the
attempted recipe. -/
theorem processTarget_buildCall_src (cfg : SchedConfig) (name recipe : String)
    (acc : SchedState × Bool) (t : Target) (x : String) (tx : Target)
    (h : Event.buildCall x tx ∈ (processTarget cfg name recipe acc t).1.events) :
    Event.buildCall x tx ∈ acc.1.events ∨ x = recipe := by
  revert h
  cases hr : (cfg.buildFn recipe t).success <;>
    cases ht' : cfg.testonly <;>
    cases ha : cfg.anaconda_upload <;>
    cases hok : cfg.anacondaUploadFn t.pkg <;>
    rcases hm : cfg.mulled_upload_target with _ | tgt <;>
    · intro h
      simp [processTarget, hr, ht', ha, hok, hm] at h
      tauto


/-- A build call in the target loop's trace was already there or names the
looped recipe. -/
theorem targetsFold_buildCall_src (cfg : SchedConfig) (name recipe : String) :
    ∀ (ts : List Target) (acc : SchedState × Bool) (x : String) (tx : Target),
    Event.buildCall x tx ∈ (ts.foldl (processTarget cfg name recipe) acc).1.events →
    Event.buildCall x tx ∈ acc.1.events ∨ x = recipe := by
  intro ts
  induction ts with
  | nil => intro acc x tx h; exact Or.inl h
  | cons t ts ih =>
    intro acc x tx h
    simp only [List.foldl_cons] at h
    rcases ih _ x tx h with h' | h'
    · exact processTarget_buildCall_src cfg name recipe acc t x tx h'
    · exact Or.inr h'

/-- A build call in a recipe step's trace was already there or names the
processed recipe. -/
theorem processRecipe_buildCall_src (cfg : SchedConfig) (s : SchedState)
    (r x : String) (tx : Target)
    (h : Event.buildCall x tx ∈ (processRecipe cfg s r).events) :
    Event.buildCall x tx ∈ s.events ∨ x = r := by
  revert h
  unfold processRecipe
  rcases hl : ledgerGet s.skip_dependent (cfg.recipe2name r) with _ | bl
  · simp only [hl]
    cases hb : ((cfg.recipe_targets r).foldl
        (processTarget cfg (cfg.recipe2name r) r) (s, true)).2 <;>
      simp only [hb, Bool.false_eq_true, if_false, if_true] <;>
      intro h <;>
      exact targetsFold_buildCall_src cfg (cfg.recipe2name r) r
        (cfg.recipe_targets r) (s, true) x tx h
  · simp only [hl]
    intro h
    rcases List.mem_append.mp h with h' | h'
    · exact Or.inl h'
    · cases List.mem_singleton.mp h'

/-- A build call in the fold's trace was already there or names one of the
folded recipes. -/
theorem runFold_buildCall_src (cfg : SchedConfig) :
    ∀ (l : List String) (s : SchedState) (x : String) (tx : Target),
    Event.buildCall x tx ∈ ((l.foldl (processRecipe cfg) s)).events →
    Event.buildCall x tx ∈ s.events ∨ x ∈ l := by
  intro l
  induction l with
  | nil => intro s x tx h; exact Or.inl h
  | cons r l ih =>
    intro s x tx h
    simp only [List.foldl_cons] at h
    rcases ih _ x tx h with h' | h'
    · rcases processRecipe_buildCall_src cfg s r x tx h' with h'' | h''
      · exact Or.inl h''
      · exact Or.inr (h'' ▸ List.mem_cons_self r l)
    · exact Or.inr (List.mem_cons_of_mem r h')

/-- C2: when a target of recipe `r1` fails, `r1` is appended to the skip
ledger under every package name that is a transitive descendant of `r1`'s
package name within the shard; and a later-scheduled recipe `r2` whose package
name is such a descendant is recorded as skipped with the recorded blocking
recipes (which include `r1`), and none of its targets is ever attempted. -/
theorem skip_propagation (cfg : SchedConfig) (pre mid post : List String)
    (r1 r2 : String)
    (hsched : scheduledRecipes cfg = pre ++ (r1 :: (mid ++ (r2 :: post))))
    (hNd : (scheduledRecipes cfg).Nodup)
    (hledger : ledgerGet
      ((pre.foldl (processRecipe cfg) initState)).skip_dependent
      (cfg.recipe2name r1) = none)
    (t : Target) (ht : t ∈ cfg.recipe_targets r1)
    (hfail : (cfg.buildFn r1 t).success = false)
    (hdesc : Relation.TransGen (edgeStep cfg.subdag) (cfg.recipe2name r1)
      (cfg.recipe2name r2))
    (hne : cfg.recipe2name r2 ≠ cfg.recipe2name r1) :
    (∀ m, Relation.TransGen (edgeStep cfg.subdag) (cfg.recipe2name r1) m →
      m ≠ cfg.recipe2name r1 →
      ledgerMem ((processRecipe cfg (pre.foldl (processRecipe cfg) initState)
        r1)).skip_dependent m r1) ∧
    r2 ∈ (runScheduler cfg).skipped_recipes ∧
    (∃ blockers, Event.skipRecord r2 blockers ∈ (runScheduler cfg).events ∧
      r1 ∈ blockers) ∧
    (∀ t2 : Target, Event.buildCall r2 t2 ∉ (runScheduler cfg).events) := by
  have hpart1 : ∀ m, Relation.TransGen (edgeStep cfg.subdag)
      (cfg.recipe2name r1) m → m ≠ cfg.recipe2name r1 →
      ledgerMem ((processRecipe cfg (pre.foldl (processRecipe cfg) initState)
        r1)).skip_dependent m r1 := by
    intro m hm hmne
    have hmem := descendants_complete cfg.subdag (cfg.recipe2name r1) m hm hmne
    have hout := (targetsFold_ledger cfg (cfg.recipe2name r1) r1
      (cfg.recipe_targets r1)
      ((pre.foldl (processRecipe cfg) initState), true)).2 t ht hfail m hmem
    set s0 := pre.foldl (processRecipe cfg) initState with hs0
    simp only [processRecipe, hledger]
    cases hb : ((cfg.recipe_targets r1).foldl
        (processTarget cfg (cfg.recipe2name r1) r1) (s0, true)).2 <;>
      simpa [hb] using hout
  have hNd' : (pre ++ (r1 :: (mid ++ (r2 :: post)))).Nodup := hsched ▸ hNd
  have hr2r1 : r2 ≠ r1 := by
    have h1 := (List.nodup_append.mp hNd').2.1
    have h2 := (List.nodup_cons.mp h1).1
    intro he
    exact h2 (he ▸ List.mem_append_right mid (List.mem_cons_self r2 post))
  have hr2pre : r2 ∉ pre := by
    have hdisj := (List.nodup_append.mp hNd').2.2
    intro hin
    exact hdisj hin (List.mem_cons_of_mem r1
      (List.mem_append_right mid (List.mem_cons_self r2 post)))
  have hr2mid : r2 ∉ mid := by
    have h1 := (List.nodup_append.mp hNd').2.1
    have h2 := (List.nodup_cons.mp h1).2
    have hdisj := (List.nodup_append.mp h2).2.2
    intro hin
    exact hdisj hin (List.mem_cons_self r2 post)
  have hr2post : r2 ∉ post := by
    have h1 := (List.nodup_append.mp hNd').2.1
    have h2 := (List.nodup_cons.mp h1).2
    have h3 := (List.nodup_append.mp h2).2.1
    exact (List.nodup_cons.mp h3).1
  have hfinal : runScheduler cfg =
      post.foldl (processRecipe cfg)
        (processRecipe cfg
          (mid.foldl (processRecipe cfg)
            (processRecipe cfg (pre.foldl (processRecipe cfg) initState) r1))
          r2) := by
    unfold runScheduler
    rw [hsched, List.foldl_append, List.foldl_cons, List.foldl_append,
      List.foldl_cons]
  have hledger2 : ledgerMem
      ((mid.foldl (processRecipe cfg)
        (processRecipe cfg (pre.foldl (processRecipe cfg) initState) r1))).skip_dependent
      (cfg.recipe2name r2) r1 :=
    runFold_ledger_mono cfg mid _ _ _ (hpart1 (cfg.recipe2name r2) hdesc hne)
  obtain ⟨bl, hget, hblmem⟩ := hledger2
  have hstep := processRecipe_skip_eq cfg
    (mid.foldl (processRecipe cfg)
      (processRecipe cfg (pre.foldl (processRecipe cfg) initState) r1))
    r2 bl hget
  refine ⟨hpart1, ?_, ?_, ?_⟩
  · rw [hfinal]
    apply runFold_skipped_mono
    rw [hstep]
    simp
  · refine ⟨bl, ?_, hblmem⟩
    rw [hfinal]
    obtain ⟨_, _, ⟨es, hes⟩⟩ := runFold_mono cfg post
      (processRecipe cfg
        (mid.foldl (processRecipe cfg)
          (processRecipe cfg (pre.foldl (processRecipe cfg) initState) r1))
        r2)
    rw [hes, hstep]
    simp
  · intro t2 hmem
    rw [hfinal] at hmem
    rcases runFold_buildCall_src cfg post _ r2 t2 hmem with h | h
    · rw [hstep] at h
      rcases List.mem_append.mp h with h' | h'
      · rcases runFold_buildCall_src cfg mid _ r2 t2 h' with h'' | h''
        · rcases processRecipe_buildCall_src cfg _ r1 r2 t2 h'' with h3 | h3
          · rcases runFold_buildCall_src cfg pre _ r2 t2 h3 with h4 | h4
            · cases h4
            · exact hr2pre h4
          · exact hr2r1 h3
        · exact hr2mid h''
      · cases List.mem_singleton.mp h'
    · exact hr2post h

/-- C2 witness: in the concrete chain run, the failing recipe for `a` causes
the recipe for its descendant `b` to be skipped with it recorded as blocker,
and no build is attempted for it. -/
theorem skip_propagation_witness :
    "r-b" ∈ (runScheduler exCfg).skipped_recipes ∧
    (∃ blockers, Event.skipRecord "r-b" blockers ∈ (runScheduler exCfg).events ∧
      "r-a" ∈ blockers) ∧
    (∀ t2 : Target, Event.buildCall "r-b" t2 ∉ (runScheduler exCfg).events) := by
  have h := skip_propagation exCfg [] [] ["r-c"] "r-a" "r-b" (by decide)
    (by decide) rfl ⟨"e", "p"⟩ (by decide) (by decide)
    (Relation.TransGen.single (by decide)) (by decide)
  exact ⟨h.2.1, h.2.2.1, h.2.2.2⟩


/-! ## Topological order of the schedule (C1) -/

/-- Unfolding equation of Kahn's worker at positive fuel. -/
theorem kahnAux_succ (f : Nat) (edges : List (String × String))
    (rem : List String) :
    kahnAux (f + 1) edges rem =
      match rem.find? (noIncoming edges rem) with
      | none => []
      | some n => n :: kahnAux f edges (rem.erase n) := rfl

/-- Kahn's worker only emits nodes of the remaining set. -/
theorem kahnAux_subset (edges : List (String × String)) :
    ∀ (f : Nat) (rem : List String), kahnAux f edges rem ⊆ rem := by
  intro f
  induction f with
  | zero => intro rem x hx; cases hx
  | succ f ih =>
    intro rem x hx
    rw [kahnAux_succ] at hx
    rcases hfind : rem.find? (noIncoming edges rem) with _ | n
    · rw [hfind] at hx
      cases hx
    · rw [hfind] at hx
      rcases List.mem_cons.mp hx with rfl | hx'
      · exact List.mem_of_find?_eq_some hfind
      · exact List.mem_of_mem_erase (ih (rem.erase n) hx')

/-- Kahn's worker emits no node twice. -/
theorem kahnAux_nodup (edges : List (String × String)) :
    ∀ (f : Nat) (rem : List String), rem.Nodup → (kahnAux f edges rem).Nodup := by
  intro f
  induction f with
  | zero => intro rem _; exact List.nodup_nil
  | succ f ih =>
    intro rem hnd
    rw [kahnAux_succ]
    rcases hfind : rem.find? (noIncoming edges rem) with _ | n
    · exact List.nodup_nil
    · refine List.nodup_cons.mpr ⟨?_, ih (rem.erase n) (hnd.erase n)⟩
      intro hmem
      have hsub := kahnAux_subset edges f (rem.erase n) hmem
      exact ((List.Nodup.mem_erase_iff hnd).mp hsub).1 rfl

/-- Ordering property of Kahn's worker: when a node is emitted, every
remaining-set predecessor of it was emitted earlier. -/
theorem kahnAux_before (edges : List (String × String)) :
    ∀ (f : Nat) (rem : List String) (j : Nat) (b : String),
    (kahnAux f edges rem).get? j = some b →
    ∀ a, (a, b) ∈ edges → a ∈ rem →
    ∃ i, i < j ∧ (kahnAux f edges rem).get? i = some a := by
  intro f
  induction f with
  | zero => intro rem j b hj; cases hj
  | succ f ih =>
    intro rem j b hj a hab ha
    rcases hfind : rem.find? (noIncoming edges rem) with _ | n
    · rw [kahnAux_succ, hfind] at hj
      cases hj
    · rw [kahnAux_succ, hfind] at hj ⊢
      have hno : noIncoming edges rem n = true := List.find?_some hfind
      cases j with
      | zero =>
        have hbn : b = n := by
          have := hj
          simp at this
          exact this.symm
        subst hbn
        exfalso
        have hall := List.all_eq_true.mp hno (a, b) hab
        simp at hall
        exact hall ha
      | succ j =>
        have hj' : (kahnAux f edges (rem.erase n)).get? j = some b := by
          simpa using hj
        by_cases han : a = n
        · exact ⟨0, Nat.succ_pos j, by simp [han]⟩
        · have ha' : a ∈ rem.erase n := (List.mem_erase_of_ne han).mpr ha
          obtain ⟨i, hi, hgi⟩ := ih (rem.erase n) j b hj' a hab ha'
          exact ⟨i + 1, Nat.succ_lt_succ hi, by simpa using hgi⟩

/-- Ordering transfer to the flattened (name, recipe) schedule: if `a`
precedes `b` in the name order, every pair contributed by `a` precedes every
pair contributed by `b`. -/
theorem flatPairs_before (f : String → List String) :
    ∀ (L : List String), L.Nodup →
    ∀ (a b ra rb : String) (iL jL : Nat), iL < jL → L.get? iL = some a →
    L.get? jL = some b → ra ∈ f a →
    ∀ j, (L.flatMap (fun n => (f n).map (fun r => (n, r)))).get? j =
        some (b, rb) →
    ∃ i, i < j ∧
      (L.flatMap (fun n => (f n).map (fun r => (n, r)))).get? i =
        some (a, ra) := by
  intro L
  induction L with
  | nil => intro _ a b ra rb iL jL _ hiL; cases hiL
  | cons n L ihL =>
    intro hnd a b ra rb iL jL hij hiL hjL hra j hj
    have hnotin : n ∉ L := (List.nodup_cons.mp hnd).1
    have hndL : L.Nodup := (List.nodup_cons.mp hnd).2
    simp only [List.flatMap_cons] at hj ⊢
    obtain ⟨jL', rfl⟩ : ∃ jL', jL = jL' + 1 := by
      cases jL with
      | zero => cases hij
      | succ jL' => exact ⟨jL', rfl⟩
    have hjL' : L.get? jL' = some b := by simpa using hjL
    have hbL : b ∈ L := List.get?_mem hjL'
    have hbn : b ≠ n := fun he => hnotin (he ▸ hbL)
    cases iL with
    | zero =>
      have han : n = a := by simpa using hiL
      rw [← han] at hra ⊢
      by_cases hsplit : j < ((f n).map (fun r => (n, r))).length
      · exfalso
        rw [List.get?_append hsplit] at hj
        rw [List.get?_map] at hj
        rcases hx : (f n).get? j with _ | x
        · rw [hx] at hj
          cases hj
        · rw [hx] at hj
          have : n = b := by
            simpa using congrArg (Option.map Prod.fst) hj
          exact hbn this.symm
      · push_neg at hsplit
        obtain ⟨k, hk⟩ := List.get?_of_mem hra
        have hklt : k < (f n).length := by
          by_contra hge
          push_neg at hge
          rw [List.get?_eq_none.mpr hge] at hk
          cases hk
        refine ⟨k, ?_, ?_⟩
        · exact lt_of_lt_of_le (by rw [List.length_map]; exact hklt) hsplit
        · rw [List.get?_append (by rw [List.length_map]; exact hklt)]
          rw [List.get?_map, hk]
          rfl
    | succ iL' =>
      have hiL' : L.get? iL' = some a := by simpa using hiL
      have haL : a ∈ L := List.get?_mem hiL'
      by_cases hsplit : j < ((f n).map (fun r => (n, r))).length
      · exfalso
        rw [List.get?_append hsplit] at hj
        rw [List.get?_map] at hj
        rcases hx : (f n).get? j with _ | x
        · rw [hx] at hj
          cases hj
        · rw [hx] at hj
          have : n = b := by
            simpa using congrArg (Option.map Prod.fst) hj
          exact hbn this.symm
      · push_neg at hsplit
        rw [List.get?_append_right hsplit] at hj
        obtain ⟨i, hi, hgi⟩ := ihL hndL a b ra rb iL' jL'
          (Nat.lt_of_succ_lt_succ hij) hiL' hjL' hra _ hj
        refine ⟨((f n).map (fun r => (n, r))).length + i, ?_, ?_⟩
        · omega
        · rw [List.get?_append_right (by omega)]
          simpa using hgi


/-- C1: the scheduler's execution order respects dependencies — the flat
recipe order is the provenance-pair order projected to recipes, and for every
edge (a, b) of the shard, every recipe contributing package name `a` occurs in
the execution order strictly before every occurrence of a recipe contributed
by package name `b`; hence no recipe is attempted before all recipes of its
in-shard dependency names have been attempted or skipped. -/
theorem schedule_respects_dependencies (cfg : SchedConfig)
    (hwf : cfg.subdag.WellFormed) (a b ra rb : String)
    (hedge : (a, b) ∈ cfg.subdag.edges)
    (hra : ra ∈ cfg.name2recipes a) :
    scheduledRecipes cfg = (scheduledPairs cfg).map Prod.snd ∧
    (∀ j, (scheduledPairs cfg).get? j = some (b, rb) →
      ∃ i, i < j ∧ (scheduledPairs cfg).get? i = some (a, ra)) := by
  constructor
  · simp [scheduledRecipes, scheduledPairs, List.map_flatMap, List.map_map,
      Function.comp]
  · intro j hj
    have hLnd : (topological_sort cfg.subdag).Nodup :=
      kahnAux_nodup cfg.subdag.edges _ _ (List.nodup_dedup _)
    have hbpair : (b, rb) ∈ scheduledPairs cfg := List.get?_mem hj
    have hbL : b ∈ topological_sort cfg.subdag := by
      obtain ⟨n, hn, hmem⟩ := List.mem_flatMap.mp hbpair
      obtain ⟨r, _, heq⟩ := List.mem_map.mp hmem
      have hnb : n = b := (Prod.mk.injEq _ _ _ _).mp heq |>.1
      exact hnb ▸ hn
    obtain ⟨jL, hjL⟩ := List.get?_of_mem hbL
    have ha' : a ∈ cfg.subdag.nodes.dedup :=
      List.mem_dedup.mpr (hwf _ hedge).1
    obtain ⟨iL, hiL, hgetiL⟩ := kahnAux_before cfg.subdag.edges
      cfg.subdag.nodes.dedup.length cfg.subdag.nodes.dedup jL b hjL a hedge ha'
    exact flatPairs_before cfg.name2recipes (topological_sort cfg.subdag)
      hLnd a b ra rb iL jL hiL hgetiL hjL hra j hj

/-- C1 witness: in the concrete chain run, the sole recipe of `a` is
scheduled before the recipe of its dependent `b`. -/
theorem schedule_respects_dependencies_witness :
    scheduledRecipes exCfg = (scheduledPairs exCfg).map Prod.snd ∧
    (∃ i, i < 1 ∧ (scheduledPairs exCfg).get? i = some ("a", "r-a")) := by
  have h := schedule_respects_dependencies exCfg (by decide) "a" "b" "r-a"
    "r-b" (by decide) (by decide)
  exact ⟨h.1, h.2 1 (by decide)⟩


/-! ## Shard partitioning (C3) -/

/-- Stable insertion produces a permutation of consing. -/
theorem insortBy_perm (le : α → α → Bool) (x : α) :
    ∀ (l : List α), (insortBy le x l).Perm (x :: l) := by
  intro l
  induction l with
  | nil => simp [insortBy]
  | cons y ys ih =>
    unfold insortBy
    by_cases h : le x y
    · simp [h]
    · simp only [h, if_false, Bool.false_eq_true]
      exact (ih.cons y).trans (List.Perm.swap x y ys)

/-- Insertion sort permutes its input. -/
theorem sortBy_perm (le : α → α → Bool) :
    ∀ (l : List α), (sortBy le l).Perm l := by
  intro l
  induction l with
  | nil => simp [sortBy]
  | cons x xs ih =>
    exact (insortBy_perm le x (sortBy le xs)).trans (ih.cons x)

/-- Extracting the class of a member permutes the class list. -/
theorem extractClass_perm (x : String) :
    ∀ (cs : List (List String)) (c : List String) (rest : List (List String)),
    extractClass x cs = some (c, rest) → cs.Perm (c :: rest) := by
  intro cs
  induction cs with
  | nil => intro c rest h; cases h
  | cons c0 cs ih =>
    intro c rest h
    unfold extractClass at h
    by_cases hc : c0.contains x
    · rw [if_pos hc] at h
      injection h with h'
      injection h' with h1 h2
      subst h1
      subst h2
      exact List.Perm.refl _
    · rw [if_neg hc] at h
      rcases hrec : extractClass x cs with _ | ⟨c', rest'⟩
      · rw [hrec] at h
        cases h
      · rw [hrec] at h
        injection h with h'
        injection h' with h1 h2
        subst h1
        subst h2
        exact ((ih c' rest' hrec).cons c0).trans (List.Perm.swap c' c0 rest')

/-- Merging the endpoint classes of an edge preserves the multiset of all
class members. -/
theorem mergeClasses_flatten_perm (cs : List (List String))
    (e : String × String) :
    ((mergeClasses cs e).flatten).Perm cs.flatten := by
  unfold mergeClasses
  split
  · exact List.Perm.refl _
  · rename_i ca rest h1
    by_cases hin : ca.contains e.2
    · rw [if_pos hin]
    · rw [if_neg hin]
      split
      · exact List.Perm.refl _
      · rename_i cb rest2 h2
        have p1 : cs.flatten.Perm (ca ++ rest.flatten) := by
          have h := (extractClass_perm e.1 cs ca rest h1).flatten
          simpa using h
        have p2 : rest.flatten.Perm (cb ++ rest2.flatten) := by
          have h := (extractClass_perm e.2 rest cb rest2 h2).flatten
          simpa using h
        have heq : (((ca ++ cb) :: rest2).flatten) =
            ca ++ (cb ++ rest2.flatten) := by
          simp
        rw [heq]
        exact (List.Perm.append_left ca p2.symm).trans p1.symm

/-- The connected-component classes hold exactly the graph's node set. -/
theorem components_flatten_perm (g : DiGraph) :
    ((connected_components g).flatten).Perm g.nodes.dedup := by
  unfold connected_components
  have base : ∀ (l : List String),
      ((l.map (fun n => [n])).flatten) = l := by
    intro l
    induction l with
    | nil => rfl
    | cons x xs ih => simp [ih]
  have step : ∀ (es : List (String × String)) (cs : List (List String)),
      ((es.foldl mergeClasses cs).flatten).Perm cs.flatten := by
    intro es
    induction es with
    | nil => intro cs; exact List.Perm.refl _
    | cons e es ih =>
      intro cs
      simp only [List.foldl_cons]
      exact (ih (mergeClasses cs e)).trans (mergeClasses_flatten_perm cs e)
  have h := step g.edges (g.nodes.dedup.map (fun n => [n]))
  rw [base g.nodes.dedup] at h
  exact h

/-- The sorted unit list holds exactly the graph's node set, without
duplicates. -/
theorem subdags_flatten (g : DiGraph) (testonly : Bool) :
    ((subdagsOf g testonly).flatten).Perm g.nodes.dedup ∧
    ((subdagsOf g testonly).flatten).Nodup := by
  have base : ∀ (l : List String),
      ((l.map (fun n => [n])).flatten) = l := by
    intro l
    induction l with
    | nil => rfl
    | cons x xs ih => simp [ih]
  have mapsort : ∀ (cs : List (List String)),
      ((cs.map (sortBy strLe)).flatten).Perm cs.flatten := by
    intro cs
    induction cs with
    | nil => exact List.Perm.refl _
    | cons c cs ih =>
      simp only [List.map_cons, List.flatten_cons]
      exact List.Perm.append (sortBy_perm strLe c) ih
  have hperm : ((subdagsOf g testonly).flatten).Perm g.nodes.dedup := by
    unfold subdagsOf
    cases testonly
    · simp only [Bool.false_eq_true, if_false]
      exact ((sortBy_perm listLe _).flatten).trans
        ((mapsort (connected_components g)).trans (components_flatten_perm g))
    · simp only [if_true]
      exact ((sortBy_perm listLe _).flatten).trans
        (by rw [base g.nodes.dedup])
  exact ⟨hperm, hperm.nodup_iff.mpr (List.nodup_dedup _)⟩


/-- Position soundness of the Python slice `xs[i::n]`. -/
theorem sliceAux_of_get? (i n : Nat) :
    ∀ (xs : List α) (k0 k : Nat) (u : α), xs.get? k = some u →
    (k0 + k) % n = i → u ∈ sliceAux i n k0 xs := by
  intro xs
  induction xs with
  | nil => intro k0 k u hu; cases hu
  | cons x xs ih =>
    intro k0 k u hu hmod
    cases k with
    | zero =>
      have hx : x = u := by simpa using hu
      subst hx
      have hmod' : k0 % n = i := by simpa using hmod
      unfold sliceAux
      rw [if_pos (by simpa using hmod')]
      simp
    | succ k =>
      have hu' : xs.get? k = some u := by simpa using hu
      have hmod' : (k0 + 1 + k) % n = i := by
        have he : k0 + 1 + k = k0 + (k + 1) := by omega
        rw [he]
        exact hmod
      unfold sliceAux
      exact List.mem_append_right _ (ih (k0 + 1) k u hu' hmod')

/-- Position completeness of the Python slice `xs[i::n]`. -/
theorem sliceAux_src (i n : Nat) :
    ∀ (xs : List α) (k0 : Nat) (u : α), u ∈ sliceAux i n k0 xs →
    ∃ k, xs.get? k = some u ∧ (k0 + k) % n = i := by
  intro xs
  induction xs with
  | nil => intro k0 u hu; cases hu
  | cons x xs ih =>
    intro k0 u hu
    unfold sliceAux at hu
    rcases List.mem_append.mp hu with hl | hr
    · by_cases hc : k0 % n == i
      · rw [if_pos hc] at hl
        refine ⟨0, by simpa using (List.mem_singleton.mp hl).symm, ?_⟩
        simpa using hc
      · rw [if_neg hc] at hl
        cases hl
    · obtain ⟨k, hget, hmod⟩ := ih (k0 + 1) u hr
      refine ⟨k + 1, by simpa using hget, ?_⟩
      have he : k0 + (k + 1) = k0 + 1 + k := by omega
      rw [he]
      exact hmod

/-- An element of a flattened list lies in the block at some position. -/
theorem mem_flatten_pos (x : String) (xs : List (List String))
    (h : x ∈ xs.flatten) :
    ∃ k u, xs.get? k = some u ∧ x ∈ u := by
  obtain ⟨u, hu, hx⟩ := List.mem_flatten.mp h
  obtain ⟨k, hk⟩ := List.get?_of_mem hu
  exact ⟨k, u, hk, hx⟩

/-- In a duplicate-free flattening, an element determines its block
position. -/
theorem nodup_flatten_unique :
    ∀ (xs : List (List String)), xs.flatten.Nodup →
    ∀ (k1 k2 : Nat) (u v : List String) (x : String),
    xs.get? k1 = some u → xs.get? k2 = some v →
    x ∈ u → x ∈ v → k1 = k2 ∧ u = v := by
  intro xs
  induction xs with
  | nil => intro _ k1 k2 u v x h1; cases h1
  | cons c cs ih =>
    intro hnd k1 k2 u v x h1 h2 hxu hxv
    obtain ⟨hc, hrest, hdisj⟩ := List.nodup_append.mp (by simpa using hnd)
    cases k1 with
    | zero =>
      have hu : c = u := by simpa using h1
      cases k2 with
      | zero =>
        have hv : c = v := by simpa using h2
        exact ⟨rfl, hu ▸ hv ▸ rfl⟩
      | succ k2 =>
        exfalso
        have h2' : cs.get? k2 = some v := by simpa using h2
        have hvmem : v ∈ cs := List.get?_mem h2'
        exact hdisj (hu ▸ hxu) (List.mem_flatten.mpr ⟨v, hvmem, hxv⟩)
    | succ k1 =>
      cases k2 with
      | zero =>
        exfalso
        have hv : c = v := by simpa using h2
        have h1' : cs.get? k1 = some u := by simpa using h1
        have humem : u ∈ cs := List.get?_mem h1'
        exact hdisj (hv ▸ hxv) (List.mem_flatten.mpr ⟨u, humem, hxu⟩)
      | succ k2 =>
        have h1' : cs.get? k1 = some u := by simpa using h1
        have h2' : cs.get? k2 = some v := by simpa using h2
        obtain ⟨hk, hv⟩ := ih hrest k1 k2 u v x h1' h2' hxu hxv
        exact ⟨by omega, hv⟩

/-- getD over an explicit option. -/
theorem getD_get? (l : List (List String)) (i : Nat) :
    l.getD i [] = (l.get? i).getD [] := by
  induction l generalizing i with
  | nil => cases i <;> simp
  | cons c cs ih => cases i <;> simp [ih]

/-- Membership of one chunk, characterized by unit positions: for `i < N`, a
node is in chunk `i` exactly when it belongs to the unit at some sorted
position `k` with `k mod N = i`. -/
theorem chunk_mem (g : DiGraph) (b : Bool) (N : Nat) (hN : 1 ≤ N) (x : String)
    (i : Nat) (hi : i < N) :
    x ∈ (chunksOf g b N).getD i [] ↔
    ∃ k u, (subdagsOf g b).get? k = some u ∧ x ∈ u ∧ k % N = i := by
  unfold chunksOf
  by_cases hlen : N < (subdagsOf g b).length
  · rw [if_pos hlen]
    have hget : ((List.range N).map
        (fun i => (sliceRR i N (subdagsOf g b)).flatten)).getD i [] =
        (sliceRR i N (subdagsOf g b)).flatten := by
      rw [getD_get?, List.get?_map, List.get?_range hi]
      rfl
    rw [hget]
    constructor
    · intro hx
      obtain ⟨u, hu, hxu⟩ := List.mem_flatten.mp hx
      obtain ⟨k, hk, hmod⟩ := sliceAux_src i N (subdagsOf g b) 0 u hu
      exact ⟨k, u, hk, hxu, by simpa using hmod⟩
    · rintro ⟨k, u, hk, hxu, hmod⟩
      exact List.mem_flatten.mpr
        ⟨u, sliceAux_of_get? i N (subdagsOf g b) 0 k u hk (by simpa using hmod),
         hxu⟩
  · rw [if_neg hlen]
    push_neg at hlen
    rw [getD_get?]
    constructor
    · intro hx
      rcases hsome : (subdagsOf g b).get? i with _ | u
      · rw [hsome] at hx
        cases hx
      · rw [hsome] at hx
        exact ⟨i, u, hsome, hx, Nat.mod_eq_of_lt hi⟩
    · rintro ⟨k, u, hk, hxu, hmod⟩
      have hklt : k < (subdagsOf g b).length := by
        by_contra hge
        push_neg at hge
        rw [List.get?_eq_none.mpr hge] at hk
        cases hk
      have hkN : k < N := lt_of_lt_of_le hklt hlen
      have hki : k = i := by
        rw [Nat.mod_eq_of_lt hkN] at hmod
        exact hmod
      subst hki
      rw [hk]
      exact hxu

/-- Membership of a shard's node list. -/
theorem shard_nodes_mem (g : DiGraph) (b : Bool) (N i : Nat) (x : String) :
    x ∈ (shard g b N i).nodes ↔
    x ∈ g.nodes ∧ x ∈ (chunksOf g b N).getD i [] := by
  unfold shard DiGraph.subgraph
  simp only [List.mem_filter]
  constructor
  · rintro ⟨h1, h2⟩
    exact ⟨h1, by simpa using h2⟩
  · rintro ⟨h1, h2⟩
    exact ⟨h1, by simpa using h2⟩

/-- C3: for every graph, test-only flag and shard count N ≥ 1, the node sets
of shards 0..N-1 are pairwise disjoint and cover exactly the graph's node set;
and when N is smaller than the number of units, the unit at sorted position k
lands in shard k mod N. -/
theorem shard_partition (g : DiGraph) (testonly : Bool) (N : Nat)
    (hN : 1 ≤ N) :
    (∀ i j, i < N → j < N → i ≠ j → ∀ x,
      x ∈ (shard g testonly N i).nodes → x ∉ (shard g testonly N j).nodes) ∧
    (∀ x, x ∈ g.nodes ↔ ∃ i, i < N ∧ x ∈ (shard g testonly N i).nodes) ∧
    (N < (subdagsOf g testonly).length →
      ∀ (k : Nat) (hk : k < (subdagsOf g testonly).length) (x : String),
      x ∈ (subdagsOf g testonly).get ⟨k, hk⟩ →
      x ∈ (shard g testonly N (k % N)).nodes) := by
  obtain ⟨hperm, hnd⟩ := subdags_flatten g testonly
  refine ⟨?_, ?_, ?_⟩
  · intro i j hi hj hij x hxi hxj
    obtain ⟨_, hci⟩ := (shard_nodes_mem g testonly N i x).mp hxi
    obtain ⟨_, hcj⟩ := (shard_nodes_mem g testonly N j x).mp hxj
    obtain ⟨k1, u, hk1, hxu, hm1⟩ := (chunk_mem g testonly N hN x i hi).mp hci
    obtain ⟨k2, v, hk2, hxv, hm2⟩ := (chunk_mem g testonly N hN x j hj).mp hcj
    obtain ⟨hkk, _⟩ := nodup_flatten_unique (subdagsOf g testonly) hnd
      k1 k2 u v x hk1 hk2 hxu hxv
    exact hij (hm1 ▸ hm2 ▸ hkk ▸ rfl)
  · intro x
    constructor
    · intro hx
      have hxd : x ∈ g.nodes.dedup := List.mem_dedup.mpr hx
      have hxf : x ∈ (subdagsOf g testonly).flatten := hperm.mem_iff.mpr hxd
      obtain ⟨k, u, hk, hxu⟩ := mem_flatten_pos x (subdagsOf g testonly) hxf
      refine ⟨k % N, Nat.mod_lt k hN, ?_⟩
      refine (shard_nodes_mem g testonly N (k % N) x).mpr ⟨hx, ?_⟩
      exact (chunk_mem g testonly N hN x (k % N) (Nat.mod_lt k hN)).mpr
        ⟨k, u, hk, hxu, rfl⟩
    · rintro ⟨i, _, hxi⟩
      exact ((shard_nodes_mem g testonly N i x).mp hxi).1
  · intro hlen k hk x hxu
    have hget : (subdagsOf g testonly).get? k =
        some ((subdagsOf g testonly).get ⟨k, hk⟩) := List.get?_eq_get hk
    have humem : (subdagsOf g testonly).get ⟨k, hk⟩ ∈ subdagsOf g testonly :=
      List.get?_mem hget
    have hxf : x ∈ (subdagsOf g testonly).flatten :=
      List.mem_flatten.mpr ⟨_, humem, hxu⟩
    have hxg : x ∈ g.nodes := List.dedup_subset _ (hperm.mem_iff.mp hxf)
    refine (shard_nodes_mem g testonly N (k % N) x).mpr ⟨hxg, ?_⟩
    exact (chunk_mem g testonly N hN x (k % N) (Nat.mod_lt k hN)).mpr
      ⟨k, _, hget, hxu, rfl⟩

/-- C3 witness: the spec's example — components A, B→C, D with two shards
give shard 0 = A, D and shard 1 = B, C; applied at graph, N = 2 and a node of
each shard. -/
theorem shard_partition_witness :
    ("A" ∈ (shard ⟨["A", "B", "C", "D"], [("B", "C")]⟩ false 2 0).nodes →
      "A" ∉ (shard ⟨["A", "B", "C", "D"], [("B", "C")]⟩ false 2 1).nodes) ∧
    ("B" ∈ (⟨["A", "B", "C", "D"], [("B", "C")]⟩ : DiGraph).nodes ↔
      ∃ i, i < 2 ∧
        "B" ∈ (shard ⟨["A", "B", "C", "D"], [("B", "C")]⟩ false 2 i).nodes) := by
  have h := shard_partition ⟨["A", "B", "C", "D"], [("B", "C")]⟩ false 2
    (by decide)
  exact ⟨h.1 0 1 (by decide) (by decide) (by decide) "A", h.2.1 "B"⟩

end Bioconda
